import Mathlib

/-!
Verification development for the CBDC token repository
(`cbdc-token-python`).  The Python source is shallowly embedded: pure
helpers from `shared/token_utils.py` become Lean functions on `Nat`/`Int`,
and the sqlite-backed ledger of `central_bank/database.py` becomes explicit
state passing over a `DB` record, with the Python `sqlite3`
commit/rollback discipline made explicit (uncommitted work happens on a
draft; closing the connection without commit discards the draft).
-/

namespace CBDC

/-! ## shared/token_utils.py -/

/-- Embeds `DENOMINATIONS = [1, 2, 5, 10, 20, 50, 100, 200, 500, 2000]`
(token_utils.py line 11). -/
def DENOMINATIONS : List Nat := [1, 2, 5, 10, 20, 50, 100, 200, 500, 2000]

/-- Embeds the inner loop of `make_change`
(`while remaining >= denom: change.append(denom); remaining -= denom`).
The loop runs at most `remaining` times since each iteration removes
`d ≥ 1`, so an explicit fuel argument instantiated with `remaining`
makes the recursion structural.  Returns the appended coins and the
final value of `remaining`. -/
def spendLoop (d : Nat) : Nat → Nat → List Nat × Nat
  | 0, remaining => ([], remaining)
  | fuel + 1, remaining =>
      if 0 < d ∧ d ≤ remaining then
        let p := spendLoop d fuel (remaining - d)
        (d :: p.1, p.2)
      else ([], remaining)

/-- One pass of the `make_change` while-loop for denomination `d`,
starting from `remaining`. -/
def spendDenom (remaining d : Nat) : List Nat × Nat :=
  spendLoop d remaining remaining

/-- Embeds the `for denom in sorted(DENOMINATIONS, reverse=True)` loop of
`make_change` (token_utils.py lines 75-77), over an explicit list of
denominations. -/
def makeChangeAux : Nat → List Nat → List Nat
  | _, [] => []
  | remaining, d :: ds =>
      let p := spendDenom remaining d
      p.1 ++ makeChangeAux p.2 ds

/-- Embeds `make_change(amount)` (token_utils.py lines 64-80).  `amount` is
a Python `int`, hence `Int` here; `amount <= 0` returns `[]`.
`sorted(DENOMINATIONS, reverse=True)` is the reverse of the ascending
literal `DENOMINATIONS`. -/
def make_change (amount : Int) : List Nat :=
  if amount ≤ 0 then []
  else makeChangeAux amount.toNat DENOMINATIONS.reverse

theorem spendLoop_eq (d : Nat) (hd : 0 < d) :
    ∀ fuel remaining, remaining ≤ fuel →
      spendLoop d fuel remaining =
        (List.replicate (remaining / d) d, remaining % d) := by
  intro fuel
  induction fuel with
  | zero =>
      intro remaining h
      have : remaining = 0 := Nat.le_zero.mp h
      subst this
      simp [spendLoop, Nat.zero_div, Nat.zero_mod]
  | succ n ih =>
      intro remaining h
      rw [spendLoop]
      by_cases hle : d ≤ remaining
      · have hrem : remaining - d ≤ n := by omega
        simp only [hd, hle, and_self, if_true]
        rw [ih (remaining - d) hrem]
        have hdiv : remaining / d = (remaining - d) / d + 1 :=
          Nat.div_eq_sub_div hd hle
        have hmod : remaining % d = (remaining - d) % d :=
          (Nat.mod_eq_sub_mod hle).symm.symm ▸ (Nat.mod_eq_sub_mod hle)
        rw [hdiv, hmod]
        simp [List.replicate_succ]
      · have : ¬ (0 < d ∧ d ≤ remaining) := by omega
        simp only [this, if_false]
        rw [Nat.div_eq_of_lt (by omega), Nat.mod_eq_of_lt (by omega)]
        simp

theorem spendDenom_eq (remaining d : Nat) (hd : 0 < d) :
    spendDenom remaining d =
      (List.replicate (remaining / d) d, remaining % d) :=
  spendLoop_eq d hd remaining remaining (Nat.le_refl _)

theorem makeChangeAux_sum (ds : List Nat) (hds : ∀ x ∈ ds, 0 < x) :
    ∀ n, (makeChangeAux n ds).sum + ds.foldl (fun r x => r % x) n = n := by
  induction ds with
  | nil => intro n; simp [makeChangeAux]
  | cons d ds ih =>
      intro n
      have hd : 0 < d := hds d (List.mem_cons_self d ds)
      have hds' : ∀ x ∈ ds, 0 < x := fun x hx => hds x (List.mem_cons_of_mem d hx)
      simp only [makeChangeAux, spendDenom_eq n d hd, List.sum_append,
        List.foldl_cons]
      have hrep : (List.replicate (n / d) d).sum = d * (n / d) := by
        simp [List.sum_replicate, Nat.smul_one_eq_cast, Nat.mul_comm]
      rw [hrep]
      have h1 := ih hds' (n % d)
      have h2 := Nat.div_add_mod n d
      omega

theorem makeChangeAux_mem (ds : List Nat) :
    ∀ n, ∀ x ∈ makeChangeAux n ds, x ∈ ds := by
  induction ds with
  | nil => intro n x hx; simp [makeChangeAux] at hx
  | cons d ds ih =>
      intro n x hx
      simp only [makeChangeAux, List.mem_append] at hx
      rcases hx with hx | hx
      · have : x ∈ (spendDenom n d).1 → x = d := by
          intro hmem
          by_cases hd : 0 < d
          · rw [spendDenom_eq n d hd] at hmem
            exact List.eq_of_mem_replicate hmem
          · have hd0 : d = 0 := by omega
            subst hd0
            simp [spendDenom, spendLoop] at hmem
            rcases n with _ | m
            · simp [spendLoop] at hmem
            · simp [spendLoop] at hmem
        exact (this hx) ▸ List.mem_cons_self d ds
      · exact List.mem_cons_of_mem d (ih _ x hx)

/-- C5, helper: for nonnegative `n`, the greedy pass over the descending
denomination list sums to `n` exactly (the trailing denomination 1 leaves
remainder 0). -/
theorem makeChangeAux_denoms_sum (n : Nat) :
    (makeChangeAux n DENOMINATIONS.reverse).sum = n := by
  have hpos : ∀ x ∈ DENOMINATIONS.reverse, 0 < x := by decide
  have h := makeChangeAux_sum DENOMINATIONS.reverse hpos n
  have hfold : DENOMINATIONS.reverse.foldl (fun r x => r % x) n = 0 := by
    show ((((((((((n % 2000) % 500) % 200) % 100) % 50) % 20) % 10) % 5) % 2) % 1) = 0
    simp [Nat.mod_one]
  rw [hfold] at h
  omega

/-- For positive `amount`, the `make_change` coins are members of
`DENOMINATIONS` and sum exactly to `amount`. -/
theorem make_change_spec (amount : Int) (hpos : 0 < amount) :
    ((make_change amount).sum : Int) = amount ∧
    ∀ x ∈ make_change amount, x ∈ DENOMINATIONS := by
  have hnot : ¬ amount ≤ 0 := by omega
  constructor
  · simp only [make_change, hnot, if_false]
    rw [makeChangeAux_denoms_sum]
    omega
  · intro x hx
    simp only [make_change, hnot, if_false] at hx
    have := makeChangeAux_mem DENOMINATIONS.reverse amount.toNat x hx
    exact List.mem_reverse.mp this

/-- C5.  Change correctness of `make_change`: for positive `amount` the
returned coins are members of `DENOMINATIONS` and sum exactly to `amount`;
for `amount ≤ 0` the result is the empty list. -/
theorem make_change_correct (amount : Int) :
    (0 < amount →
      ((make_change amount).sum : Int) = amount ∧
      ∀ x ∈ make_change amount, x ∈ DENOMINATIONS) ∧
    (amount ≤ 0 → make_change amount = []) := by
  constructor
  · exact make_change_spec amount
  · intro hle
    simp [make_change, hle]

/-- Witness for C5 at `amount = 153`: `make_change 153 = [100, 50, 2, 1]`. -/
theorem make_change_correct_witness :
    ((make_change 153).sum : Int) = 153 ∧
    ∀ x ∈ make_change 153, x ∈ DENOMINATIONS :=
  (make_change_correct 153).1 (by decide)

/-! ## Greedy optimality (C6)

A multiset of denominations is represented by its vector of
per-denomination counts.  A count-decreasing, value-preserving rewrite
system sends every representation to a normal form; normal forms are
unique per value and coincide with the greedy decomposition, so the
greedy decomposition has minimal length. -/

/-- Per-denomination multiplicities of a multiset of denominations. -/
structure Counts where
  c1 : Nat
  c2 : Nat
  c5 : Nat
  c10 : Nat
  c20 : Nat
  c50 : Nat
  c100 : Nat
  c200 : Nat
  c500 : Nat
  c2000 : Nat

/-- Total monetary value of the multiset. -/
def Counts.val (c : Counts) : Nat :=
  c.c1 + 2 * c.c2 + 5 * c.c5 + 10 * c.c10 + 20 * c.c20 + 50 * c.c50 +
    100 * c.c100 + 200 * c.c200 + 500 * c.c500 + 2000 * c.c2000

/-- Number of coins in the multiset. -/
def Counts.size (c : Counts) : Nat :=
  c.c1 + c.c2 + c.c5 + c.c10 + c.c20 + c.c50 + c.c100 + c.c200 +
    c.c500 + c.c2000

/-- Normal form: no value-preserving, count-decreasing exchange applies. -/
def NF (c : Counts) : Prop :=
  c.c1 ≤ 1 ∧ c.c2 ≤ 2 ∧ (c.c2 = 2 → c.c1 = 0) ∧ c.c5 ≤ 1 ∧ c.c10 ≤ 1 ∧
    c.c20 ≤ 2 ∧ (c.c20 = 2 → c.c10 = 0) ∧ c.c50 ≤ 1 ∧ c.c100 ≤ 1 ∧
    c.c200 ≤ 2 ∧ (c.c200 = 2 → c.c100 = 0) ∧ c.c500 ≤ 3

instance (c : Counts) : Decidable (NF c) := by
  unfold NF
  infer_instance

/-- One value-preserving exchange that strictly decreases the coin count
(for example two 1-coins become one 2-coin, three 2-coins become a 5-coin
plus a 1-coin, four 500-coins become a 2000-coin). -/
def reduceStep : Counts → Counts
  | ⟨a1, a2, a5, a10, a20, a50, a100, a200, a500, a2000⟩ =>
    if 2 ≤ a1 then ⟨a1 - 2, a2 + 1, a5, a10, a20, a50, a100, a200, a500, a2000⟩
    else if 2 ≤ a2 ∧ 1 ≤ a1 then
      ⟨a1 - 1, a2 - 2, a5 + 1, a10, a20, a50, a100, a200, a500, a2000⟩
    else if 3 ≤ a2 then
      ⟨a1 + 1, a2 - 3, a5 + 1, a10, a20, a50, a100, a200, a500, a2000⟩
    else if 2 ≤ a5 then
      ⟨a1, a2, a5 - 2, a10 + 1, a20, a50, a100, a200, a500, a2000⟩
    else if 2 ≤ a10 then
      ⟨a1, a2, a5, a10 - 2, a20 + 1, a50, a100, a200, a500, a2000⟩
    else if 2 ≤ a20 ∧ 1 ≤ a10 then
      ⟨a1, a2, a5, a10 - 1, a20 - 2, a50 + 1, a100, a200, a500, a2000⟩
    else if 3 ≤ a20 then
      ⟨a1, a2, a5, a10 + 1, a20 - 3, a50 + 1, a100, a200, a500, a2000⟩
    else if 2 ≤ a50 then
      ⟨a1, a2, a5, a10, a20, a50 - 2, a100 + 1, a200, a500, a2000⟩
    else if 2 ≤ a100 then
      ⟨a1, a2, a5, a10, a20, a50, a100 - 2, a200 + 1, a500, a2000⟩
    else if 2 ≤ a200 ∧ 1 ≤ a100 then
      ⟨a1, a2, a5, a10, a20, a50, a100 - 1, a200 - 2, a500 + 1, a2000⟩
    else if 3 ≤ a200 then
      ⟨a1, a2, a5, a10, a20, a50, a100 + 1, a200 - 3, a500 + 1, a2000⟩
    else if 4 ≤ a500 then
      ⟨a1, a2, a5, a10, a20, a50, a100, a200, a500 - 4, a2000 + 1⟩
    else ⟨a1, a2, a5, a10, a20, a50, a100, a200, a500, a2000⟩

theorem reduceStep_reduces (c : Counts) (h : ¬ NF c) :
    (reduceStep c).val = c.val ∧ (reduceStep c).size < c.size := by
  obtain ⟨a1, a2, a5, a10, a20, a50, a100, a200, a500, a2000⟩ := c
  simp only [NF] at h
  simp only [reduceStep]
  by_cases h1 : 2 ≤ a1
  · rw [if_pos h1]
    exact ⟨by simp only [Counts.val]; omega, by simp only [Counts.size]; omega⟩
  · rw [if_neg h1]
    by_cases h2 : 2 ≤ a2 ∧ 1 ≤ a1
    · rw [if_pos h2]
      exact ⟨by simp only [Counts.val]; omega, by simp only [Counts.size]; omega⟩
    · rw [if_neg h2]
      by_cases h3 : 3 ≤ a2
      · rw [if_pos h3]
        exact ⟨by simp only [Counts.val]; omega, by simp only [Counts.size]; omega⟩
      · rw [if_neg h3]
        by_cases h4 : 2 ≤ a5
        · rw [if_pos h4]
          exact ⟨by simp only [Counts.val]; omega, by simp only [Counts.size]; omega⟩
        · rw [if_neg h4]
          by_cases h5 : 2 ≤ a10
          · rw [if_pos h5]
            exact ⟨by simp only [Counts.val]; omega, by simp only [Counts.size]; omega⟩
          · rw [if_neg h5]
            by_cases h6 : 2 ≤ a20 ∧ 1 ≤ a10
            · rw [if_pos h6]
              exact ⟨by simp only [Counts.val]; omega, by simp only [Counts.size]; omega⟩
            · rw [if_neg h6]
              by_cases h7 : 3 ≤ a20
              · rw [if_pos h7]
                exact ⟨by simp only [Counts.val]; omega, by simp only [Counts.size]; omega⟩
              · rw [if_neg h7]
                by_cases h8 : 2 ≤ a50
                · rw [if_pos h8]
                  exact ⟨by simp only [Counts.val]; omega, by simp only [Counts.size]; omega⟩
                · rw [if_neg h8]
                  by_cases h9 : 2 ≤ a100
                  · rw [if_pos h9]
                    exact ⟨by simp only [Counts.val]; omega, by simp only [Counts.size]; omega⟩
                  · rw [if_neg h9]
                    by_cases h10 : 2 ≤ a200 ∧ 1 ≤ a100
                    · rw [if_pos h10]
                      exact ⟨by simp only [Counts.val]; omega, by simp only [Counts.size]; omega⟩
                    · rw [if_neg h10]
                      by_cases h11 : 3 ≤ a200
                      · rw [if_pos h11]
                        exact ⟨by simp only [Counts.val]; omega, by simp only [Counts.size]; omega⟩
                      · rw [if_neg h11]
                        by_cases h12 : 4 ≤ a500
                        · rw [if_pos h12]
                          exact ⟨by simp only [Counts.val]; omega, by simp only [Counts.size]; omega⟩
                        · rw [if_neg h12]
                          exfalso
                          exact h ⟨by omega, by omega, by omega, by omega, by omega, by omega, by omega, by omega, by omega, by omega, by omega, by omega⟩

/-- Normalization by iterated reduction; the coin count bounds the number
of reduction steps, so it serves as structural fuel. -/
def normalizeFuel : Nat → Counts → Counts
  | 0, c => c
  | fuel + 1, c => if NF c then c else normalizeFuel fuel (reduceStep c)

def normalize (c : Counts) : Counts := normalizeFuel c.size c

theorem size_zero_nf (c : Counts) (h : c.size = 0) : NF c := by
  obtain ⟨a1, a2, a5, a10, a20, a50, a100, a200, a500, a2000⟩ := c
  simp only [Counts.size] at h
  simp only [NF]
  omega

theorem normalizeFuel_spec :
    ∀ fuel c, c.size ≤ fuel →
      NF (normalizeFuel fuel c) ∧ (normalizeFuel fuel c).val = c.val ∧
        (normalizeFuel fuel c).size ≤ c.size := by
  intro fuel
  induction fuel with
  | zero =>
      intro c h
      have hnf := size_zero_nf c (Nat.le_zero.mp h)
      exact ⟨hnf, rfl, Nat.le_refl _⟩
  | succ n ih =>
      intro c h
      by_cases hnf : NF c
      · have heq : normalizeFuel (n + 1) c = c := by
          rw [normalizeFuel, if_pos hnf]
        rw [heq]
        exact ⟨hnf, rfl, Nat.le_refl _⟩
      · have heq : normalizeFuel (n + 1) c = normalizeFuel n (reduceStep c) := by
          rw [normalizeFuel, if_neg hnf]
        obtain ⟨hv, hs⟩ := reduceStep_reduces c hnf
        obtain ⟨h1, h2, h3⟩ := ih (reduceStep c) (by omega)
        rw [heq]
        exact ⟨h1, by omega, by omega⟩

theorem normalize_spec (c : Counts) :
    NF (normalize c) ∧ (normalize c).val = c.val ∧
      (normalize c).size ≤ c.size :=
  normalizeFuel_spec c.size c (Nat.le_refl _)

/-- The per-denomination counts produced by the largest-first greedy
decomposition of `n`. -/
def greedyCounts (n : Nat) : Counts where
  c2000 := n / 2000
  c500 := n % 2000 / 500
  c200 := n % 2000 % 500 / 200
  c100 := n % 2000 % 500 % 200 / 100
  c50 := n % 2000 % 500 % 200 % 100 / 50
  c20 := n % 2000 % 500 % 200 % 100 % 50 / 20
  c10 := n % 2000 % 500 % 200 % 100 % 50 % 20 / 10
  c5 := n % 2000 % 500 % 200 % 100 % 50 % 20 % 10 / 5
  c2 := n % 2000 % 500 % 200 % 100 % 50 % 20 % 10 % 5 / 2
  c1 := n % 2000 % 500 % 200 % 100 % 50 % 20 % 10 % 5 % 2

/-- A normal form is determined by its value and equals the greedy
decomposition of that value. -/
theorem nf_eq_greedyCounts (c : Counts) (h : NF c) : c = greedyCounts c.val := by
  obtain ⟨a1, a2, a5, a10, a20, a50, a100, a200, a500, a2000⟩ := c
  simp only [NF] at h
  have hm2000 :
      (a1 + 2 * a2 + 5 * a5 + 10 * a10 + 20 * a20 + 50 * a50 + 100 * a100 +
        200 * a200 + 500 * a500 + 2000 * a2000) % 2000 =
      a1 + 2 * a2 + 5 * a5 + 10 * a10 + 20 * a20 + 50 * a50 + 100 * a100 +
        200 * a200 + 500 * a500 := by omega
  have hd2000 :
      (a1 + 2 * a2 + 5 * a5 + 10 * a10 + 20 * a20 + 50 * a50 + 100 * a100 +
        200 * a200 + 500 * a500 + 2000 * a2000) / 2000 = a2000 := by omega
  have hm500 :
      (a1 + 2 * a2 + 5 * a5 + 10 * a10 + 20 * a20 + 50 * a50 + 100 * a100 +
        200 * a200 + 500 * a500) % 500 =
      a1 + 2 * a2 + 5 * a5 + 10 * a10 + 20 * a20 + 50 * a50 + 100 * a100 +
        200 * a200 := by omega
  have hd500 :
      (a1 + 2 * a2 + 5 * a5 + 10 * a10 + 20 * a20 + 50 * a50 + 100 * a100 +
        200 * a200 + 500 * a500) / 500 = a500 := by omega
  have hm200 :
      (a1 + 2 * a2 + 5 * a5 + 10 * a10 + 20 * a20 + 50 * a50 + 100 * a100 +
        200 * a200) % 200 =
      a1 + 2 * a2 + 5 * a5 + 10 * a10 + 20 * a20 + 50 * a50 + 100 * a100 := by
    omega
  have hd200 :
      (a1 + 2 * a2 + 5 * a5 + 10 * a10 + 20 * a20 + 50 * a50 + 100 * a100 +
        200 * a200) / 200 = a200 := by omega
  have hm100 :
      (a1 + 2 * a2 + 5 * a5 + 10 * a10 + 20 * a20 + 50 * a50 + 100 * a100) % 100 =
      a1 + 2 * a2 + 5 * a5 + 10 * a10 + 20 * a20 + 50 * a50 := by omega
  have hd100 :
      (a1 + 2 * a2 + 5 * a5 + 10 * a10 + 20 * a20 + 50 * a50 + 100 * a100) / 100 =
      a100 := by omega
  have hm50 :
      (a1 + 2 * a2 + 5 * a5 + 10 * a10 + 20 * a20 + 50 * a50) % 50 =
      a1 + 2 * a2 + 5 * a5 + 10 * a10 + 20 * a20 := by omega
  have hd50 :
      (a1 + 2 * a2 + 5 * a5 + 10 * a10 + 20 * a20 + 50 * a50) / 50 = a50 := by
    omega
  have hm20 :
      (a1 + 2 * a2 + 5 * a5 + 10 * a10 + 20 * a20) % 20 =
      a1 + 2 * a2 + 5 * a5 + 10 * a10 := by omega
  have hd20 :
      (a1 + 2 * a2 + 5 * a5 + 10 * a10 + 20 * a20) / 20 = a20 := by omega
  have hm10 :
      (a1 + 2 * a2 + 5 * a5 + 10 * a10) % 10 = a1 + 2 * a2 + 5 * a5 := by omega
  have hd10 : (a1 + 2 * a2 + 5 * a5 + 10 * a10) / 10 = a10 := by omega
  have hm5 : (a1 + 2 * a2 + 5 * a5) % 5 = a1 + 2 * a2 := by omega
  have hd5 : (a1 + 2 * a2 + 5 * a5) / 5 = a5 := by omega
  have hm2 : (a1 + 2 * a2) % 2 = a1 := by omega
  have hd2 : (a1 + 2 * a2) / 2 = a2 := by omega
  simp only [Counts.val, greedyCounts, Counts.mk.injEq]
  rw [hm2000, hd2000, hm500, hd500, hm200, hd200, hm100, hd100, hm50, hd50,
    hm20, hd20, hm10, hd10, hm5, hd5, hm2, hd2]
  exact ⟨rfl, rfl, rfl, rfl, rfl, rfl, rfl, rfl, rfl, rfl⟩

/-- Per-denomination counts of a list of denominations. -/
def countsOf (R : List Nat) : Counts where
  c1 := R.count 1
  c2 := R.count 2
  c5 := R.count 5
  c10 := R.count 10
  c20 := R.count 20
  c50 := R.count 50
  c100 := R.count 100
  c200 := R.count 200
  c500 := R.count 500
  c2000 := R.count 2000

theorem countsOf_val_size (R : List Nat) (h : ∀ x ∈ R, x ∈ DENOMINATIONS) :
    (countsOf R).val = R.sum ∧ (countsOf R).size = R.length := by
  induction R with
  | nil => simp [countsOf, Counts.val, Counts.size]
  | cons x R ih =>
      have hx : x ∈ DENOMINATIONS := h x (List.mem_cons_self x R)
      have hR : ∀ y ∈ R, y ∈ DENOMINATIONS :=
        fun y hy => h y (List.mem_cons_of_mem x hy)
      obtain ⟨h1, h2⟩ := ih hR
      simp only [DENOMINATIONS, List.mem_cons, List.not_mem_nil, or_false] at hx
      simp only [countsOf, Counts.val, Counts.size, List.count_cons,
        List.sum_cons, List.length_cons] at h1 h2 ⊢
      rcases hx with rfl | rfl | rfl | rfl | rfl | rfl | rfl | rfl | rfl | rfl <;>
        simp <;> omega

/-- The concrete greedy run of `make_change` has exactly the greedy
per-denomination counts. -/
theorem makeChangeAux_length (n : Nat) :
    (makeChangeAux n DENOMINATIONS.reverse).length = (greedyCounts n).size := by
  have e2000 : ∀ m, spendDenom m 2000 = (List.replicate (m / 2000) 2000, m % 2000) :=
    fun m => spendDenom_eq m 2000 (by norm_num)
  have e500 : ∀ m, spendDenom m 500 = (List.replicate (m / 500) 500, m % 500) :=
    fun m => spendDenom_eq m 500 (by norm_num)
  have e200 : ∀ m, spendDenom m 200 = (List.replicate (m / 200) 200, m % 200) :=
    fun m => spendDenom_eq m 200 (by norm_num)
  have e100 : ∀ m, spendDenom m 100 = (List.replicate (m / 100) 100, m % 100) :=
    fun m => spendDenom_eq m 100 (by norm_num)
  have e50 : ∀ m, spendDenom m 50 = (List.replicate (m / 50) 50, m % 50) :=
    fun m => spendDenom_eq m 50 (by norm_num)
  have e20 : ∀ m, spendDenom m 20 = (List.replicate (m / 20) 20, m % 20) :=
    fun m => spendDenom_eq m 20 (by norm_num)
  have e10 : ∀ m, spendDenom m 10 = (List.replicate (m / 10) 10, m % 10) :=
    fun m => spendDenom_eq m 10 (by norm_num)
  have e5 : ∀ m, spendDenom m 5 = (List.replicate (m / 5) 5, m % 5) :=
    fun m => spendDenom_eq m 5 (by norm_num)
  have e2 : ∀ m, spendDenom m 2 = (List.replicate (m / 2) 2, m % 2) :=
    fun m => spendDenom_eq m 2 (by norm_num)
  have e1 : ∀ m, spendDenom m 1 = (List.replicate (m / 1) 1, m % 1) :=
    fun m => spendDenom_eq m 1 (by norm_num)
  show (makeChangeAux n [2000, 500, 200, 100, 50, 20, 10, 5, 2, 1]).length = _
  simp only [makeChangeAux, e2000, e500, e200, e100, e50, e20, e10, e5, e2, e1,
    List.length_append, List.length_replicate, List.length_nil,
    greedyCounts, Counts.size]
  omega

/-- C6.  Greedy optimality: for every positive `amount`, every list of
denominations from `DENOMINATIONS` summing to `amount` has at least as
many coins as `make_change amount` (lists enumerate exactly the multisets
of denominations). -/
theorem make_change_optimal (amount : Int) (hpos : 0 < amount)
    (R : List Nat) (hmem : ∀ x ∈ R, x ∈ DENOMINATIONS)
    (hsum : (R.sum : Int) = amount) :
    (make_change amount).length ≤ R.length := by
  have hRsum : R.sum = amount.toNat := by omega
  obtain ⟨hval, hsize⟩ := countsOf_val_size R hmem
  obtain ⟨hnf, hv, hs⟩ := normalize_spec (countsOf R)
  have hgr : normalize (countsOf R) = greedyCounts amount.toNat := by
    rw [nf_eq_greedyCounts _ hnf, hv, hval, hRsum]
  have hlen : (make_change amount).length = (greedyCounts amount.toNat).size := by
    have hnot : ¬ amount ≤ 0 := by omega
    simp only [make_change, hnot, if_false]
    exact makeChangeAux_length amount.toNat
  rw [hlen, ← hgr, ← hsize]
  exact hs

/-- Witness for C6 at `amount = 6` with the competing multiset
`[2, 2, 2]`: the greedy result `[5, 1]` uses no more coins. -/
theorem make_change_optimal_witness :
    (make_change 6).length ≤ ([2, 2, 2] : List Nat).length :=
  make_change_optimal 6 (by decide) [2, 2, 2] (by decide) (by decide)

/-! ## calculate_change and TokenBundle.select_for_payment (C7)

`calculate_change` reads only the `denomination` field of each token dict
and returns the selected dicts themselves, so a token is embedded as a
serial (standing for the rest of the dict) plus its `denomination`
(a Python `int`, hence `Int`). -/

/-- A token dict as consumed by `calculate_change`. -/
structure PToken where
  serial : Nat
  denomination : Int
deriving DecidableEq

/-- Sum of the denominations of a list of token dicts. -/
def sumDenoms (ts : List PToken) : Int :=
  (ts.map PToken.denomination).sum

/-- Stable descending insertion of a token (equal keys keep their original
relative order, as Python's stable `sorted` does). -/
def insertDesc (t : PToken) : List PToken → List PToken
  | [] => [t]
  | u :: us =>
      if u.denomination < t.denomination then t :: u :: us
      else u :: insertDesc t us

/-- Embeds `sorted(available_tokens, key=lambda t: t['denomination'],
reverse=True)` (token_utils.py line 43): a stable descending sort by
denomination. -/
def sortTokensDesc : List PToken → List PToken
  | [] => []
  | t :: ts => insertDesc t (sortTokensDesc ts)

/-- Embeds the greedy selection loop of `calculate_change`
(token_utils.py lines 49-53): walk the sorted tokens, stopping as soon as
the running total reaches `amount`; returns the picked tokens and the
final running total. -/
def greedySelect (amount : Int) : List PToken → Int → List PToken × Int
  | [], total => ([], total)
  | t :: ts, total =>
      if amount ≤ total then ([], total)
      else
        let p := greedySelect amount ts (total + t.denomination)
        (t :: p.1, p.2)

/-- Embeds `calculate_change(amount, available_tokens)`
(token_utils.py lines 33-61).  Returns
(tokens_to_spend, change_tokens, remaining). -/
def calculate_change (amount : Int) (available : List PToken) :
    List PToken × List Nat × Int :=
  let sorted := sortTokensDesc available
  let p := greedySelect amount sorted 0
  if p.2 < amount then ([], [], amount - p.2)
  else (p.1, make_change (p.2 - amount), 0)

/-- Embeds `TokenBundle.select_for_payment(amount)`
(token_utils.py lines 158-165): returns (selected_tokens, change_needed)
on success and ([], shortfall) on insufficient funds. -/
def select_for_payment (tokens : List PToken) (amount : Int) :
    List PToken × Int :=
  let r := calculate_change amount tokens
  if 0 < r.2.2 then ([], r.2.2)
  else (r.1, sumDenoms r.1 - amount)

theorem insertDesc_perm (t : PToken) (l : List PToken) :
    List.Perm (insertDesc t l) (t :: l) := by
  induction l with
  | nil => simp [insertDesc]
  | cons u us ih =>
      rw [insertDesc]
      by_cases h : u.denomination < t.denomination
      · rw [if_pos h]
      · rw [if_neg h]
        exact List.Perm.trans (List.Perm.cons u ih) (List.Perm.swap t u us)

theorem sortTokensDesc_perm (l : List PToken) :
    List.Perm (sortTokensDesc l) l := by
  induction l with
  | nil => simp [sortTokensDesc]
  | cons t ts ih =>
      rw [sortTokensDesc]
      exact List.Perm.trans (insertDesc_perm t (sortTokensDesc ts))
        (List.Perm.cons t ih)

theorem sortTokensDesc_sum (l : List PToken) :
    sumDenoms (sortTokensDesc l) = sumDenoms l :=
  List.Perm.sum_eq ((sortTokensDesc_perm l).map PToken.denomination)

theorem greedySelect_total (amount : Int) :
    ∀ ts total, (greedySelect amount ts total).2 =
      total + sumDenoms (greedySelect amount ts total).1 := by
  intro ts
  induction ts with
  | nil => intro total; simp [greedySelect, sumDenoms]
  | cons t ts ih =>
      intro total
      rw [greedySelect]
      by_cases h : amount ≤ total
      · rw [if_pos h]; simp [sumDenoms]
      · rw [if_neg h]
        simp only [sumDenoms, List.map_cons, List.sum_cons]
        rw [ih (total + t.denomination)]
        simp only [sumDenoms]
        ring

theorem greedySelect_exhausts (amount : Int) :
    ∀ ts total, (greedySelect amount ts total).2 < amount →
      (greedySelect amount ts total).1 = ts := by
  intro ts
  induction ts with
  | nil => intro total _; simp [greedySelect]
  | cons t ts ih =>
      intro total hlt
      rw [greedySelect] at hlt ⊢
      by_cases h : amount ≤ total
      · rw [if_pos h] at hlt
        exact absurd hlt (by omega)
      · rw [if_neg h] at hlt ⊢
        simp only at hlt ⊢
        rw [ih (total + t.denomination) hlt]

/-- C7.  Selection soundness of `calculate_change` and
`TokenBundle.select_for_payment`: either the selection covers the
requested amount (remaining/shortfall 0 for `calculate_change`, change
returned by `select_for_payment`), or the shortfall is exactly the
requested amount minus the total of all available tokens and the
selection is empty. -/
theorem selection_sound (amount : Int) (available : List PToken) :
    (((calculate_change amount available).2.2 = 0 ∧
        amount ≤ sumDenoms (calculate_change amount available).1) ∨
      (0 < (calculate_change amount available).2.2 ∧
        (calculate_change amount available).1 = [] ∧
        (calculate_change amount available).2.2 =
          amount - sumDenoms available)) ∧
    ((amount ≤ sumDenoms (select_for_payment available amount).1 ∧
        (select_for_payment available amount).2 =
          sumDenoms (select_for_payment available amount).1 - amount) ∨
      ((select_for_payment available amount).1 = [] ∧
        0 < (select_for_payment available amount).2 ∧
        (select_for_payment available amount).2 =
          amount - sumDenoms available)) := by
  have hmain :
      ((calculate_change amount available).2.2 = 0 ∧
        amount ≤ sumDenoms (calculate_change amount available).1) ∨
      (0 < (calculate_change amount available).2.2 ∧
        (calculate_change amount available).1 = [] ∧
        (calculate_change amount available).2.2 =
          amount - sumDenoms available) := by
    simp only [calculate_change]
    by_cases h : (greedySelect amount (sortTokensDesc available) 0).2 < amount
    · rw [if_pos h]
      right
      have hex := greedySelect_exhausts amount (sortTokensDesc available) 0 h
      have htot := greedySelect_total amount (sortTokensDesc available) 0
      rw [hex] at htot
      rw [sortTokensDesc_sum] at htot
      exact ⟨show 0 < amount - (greedySelect amount (sortTokensDesc available) 0).2
          by omega,
        rfl,
        show amount - (greedySelect amount (sortTokensDesc available) 0).2 =
            amount - sumDenoms available by omega⟩
    · rw [if_neg h]
      left
      have htot := greedySelect_total amount (sortTokensDesc available) 0
      exact ⟨rfl,
        show amount ≤ sumDenoms (greedySelect amount (sortTokensDesc available) 0).1
          by omega⟩
  refine ⟨hmain, ?_⟩
  simp only [select_for_payment]
  rcases hmain with ⟨h0, hcov⟩ | ⟨hpos, hemp, hshort⟩
  · rw [if_neg (by omega)]
    left
    exact ⟨hcov, rfl⟩
  · rw [if_pos hpos]
    right
    exact ⟨rfl, hpos, hshort⟩

/-! ## central_bank/database.py : data model

The sqlite rows become Lean records.  Serial numbers, batch ids, ledger
ids and timestamps come from entropy/wall-clock sources in the source;
they are modeled by fresh counters in the state (only freshness and
uniqueness matter to the embedded operations).  The `description` and
`zkp_proof` columns are display-only strings never read back by any
operation and are not modeled.  The Python `sqlite3` transaction
discipline is explicit: an operation builds its updated row lists and
either commits them (`conn.commit()`), or returns the original state
(`conn.close()` without commit rolls every uncommitted write back). -/

/-- The `status` column of the `tokens` table: active, spent, destroyed. -/
inductive TokenStatus
  | active
  | spent
  | destroyed
deriving DecidableEq

/-- A row of the `tokens` table. -/
structure Token where
  serial : Nat
  denomination : Nat
  status : TokenStatus
  current_owner : String
  owner_type : String
  minted_at : Nat
  batch_id : Nat
  last_transfer_at : Option Nat
deriving DecidableEq

/-- A row of the `ledger` table. -/
structure LedgerEntry where
  id : Nat
  transaction_type : String
  from_entity : String
  to_entity : String
  token_serials : List Nat
  total_amount : Nat
  timestamp : Nat
deriving DecidableEq

/-- A row of the `token_batches` table. -/
structure Batch where
  batch_id : Nat
  denomination : Nat
  count : Nat
  minted_at : Nat
deriving DecidableEq

/-- The central-bank database: the four tables used by the embedded
operations plus the freshness counters standing for entropy/clock. -/
structure DB where
  tokens : List Token
  fis : List String
  ledger : List LedgerEntry
  batches : List Batch
  nextSerial : Nat
  nextBatch : Nat
  nextTx : Nat
  clock : Nat
deriving DecidableEq

def emptyDB : DB := ⟨[], [], [], [], 0, 0, 0, 0⟩

/-- Result of the three mint endpoints. -/
inductive MintResult
  | ok (batch_id : Nat) (total_value : Nat) (serials : List Nat)
  | invalidDenomination
  | invalidCount
  | invalidAmount
  | cannotCreateExact
deriving DecidableEq

/-- Freshly minted rows, one per entry of `denoms`, owned by the central
bank (`'CB'`/`'cb'`), status active, with consecutive serials. -/
def mkTokens : Nat → List Nat → Nat → Nat → List Token
  | _, [], _, _ => []
  | s, d :: ds, ts, b =>
      ⟨s, d, TokenStatus.active, "CB", "cb", ts, b, none⟩ :: mkTokens (s + 1) ds ts b

/-- Shared commit step of the mint endpoints: insert the token rows, one
batch row, and one `'mint'` ledger row, then commit. -/
def mintCommit (db : DB) (denoms : List Nat) (batchDenom : Nat)
    (total : Nat) : DB × MintResult :=
  let ts := db.clock
  let newTokens := mkTokens db.nextSerial denoms ts db.nextBatch
  ({ tokens := db.tokens ++ newTokens
     fis := db.fis
     ledger := db.ledger ++
       [⟨db.nextTx, "mint", "CENTRAL_BANK", "CB_VAULT",
         newTokens.map Token.serial, total, ts⟩]
     batches := db.batches ++ [⟨db.nextBatch, batchDenom, denoms.length, ts⟩]
     nextSerial := db.nextSerial + denoms.length
     nextBatch := db.nextBatch + 1
     nextTx := db.nextTx + 1
     clock := db.clock + 1 },
   MintResult.ok db.nextBatch total (newTokens.map Token.serial))

/-- Embeds `mint_tokens(denomination, count)` (database.py lines 100-153). -/
def mint_tokens (db : DB) (denomination count : Nat) : DB × MintResult :=
  if denomination ∉ DENOMINATIONS then (db, MintResult.invalidDenomination)
  else if count = 0 ∨ 10000 < count then (db, MintResult.invalidCount)
  else mintCommit db (List.replicate count denomination) denomination
    (denomination * count)

/-- First validation failure of `mint_specific_denominations`
(database.py lines 162-168), walking the requested pairs in order. -/
def validateCounts : List (Nat × Nat) → Option MintResult
  | [] => none
  | (d, c) :: rest =>
      if d ∉ DENOMINATIONS then some MintResult.invalidDenomination
      else if c = 0 then some MintResult.invalidCount
      else if 10000 < c then some MintResult.invalidCount
      else validateCounts rest

/-- Embeds `mint_specific_denominations(denomination_counts)`
(database.py lines 156-224); the dict is an ordered association list. -/
def mint_specific_denominations (db : DB) (counts : List (Nat × Nat)) :
    DB × MintResult :=
  match validateCounts counts with
  | some e => (db, e)
  | none =>
      let denoms := counts.flatMap (fun p => List.replicate p.2 p.1)
      mintCommit db denoms 0 denoms.sum

/-- Embeds `mint_mixed_tokens(amount)` (database.py lines 227-288):
decompose `amount` with `make_change` and mint one token per coin; the
guard on `sum(denominations_needed) != amount` is the
`'Cannot create exact amount'` error. -/
def mint_mixed_tokens (db : DB) (amount : Int) : DB × MintResult :=
  if amount ≤ 0 then (db, MintResult.invalidAmount)
  else
    let denoms := make_change amount
    if (denoms.sum : Int) ≠ amount then (db, MintResult.cannotCreateExact)
    else mintCommit db denoms 0 amount.toNat

/-- Embeds `register_fi` (database.py lines 291-318); returns `false` when
the FI id is already registered. -/
def register_fi (db : DB) (fi_id : String) : DB × Bool :=
  if fi_id ∈ db.fis then (db, false)
  else ({ db with fis := db.fis ++ [fi_id] }, true)

/-- Stable descending insertion of a token row by denomination. -/
def insertTokDesc (t : Token) : List Token → List Token
  | [] => [t]
  | u :: us =>
      if u.denomination < t.denomination then t :: u :: us
      else u :: insertTokDesc t us

/-- Stable descending sort by denomination
(the `ORDER BY denomination DESC` of the vault query). -/
def sortTokDesc : List Token → List Token
  | [] => []
  | t :: ts => insertTokDesc t (sortTokDesc ts)

/-- Stable ascending insertion of a token row by denomination. -/
def insertTokAsc (t : Token) : List Token → List Token
  | [] => [t]
  | u :: us =>
      if t.denomination < u.denomination then t :: u :: us
      else u :: insertTokAsc t us

/-- Stable ascending sort by denomination (the
`sorted(available, key=lambda t: t['denomination'])` pass). -/
def sortTokAsc : List Token → List Token
  | [] => []
  | t :: ts => insertTokAsc t (sortTokAsc ts)

/-- The vault query of `allocate_tokens_to_fi` (database.py lines 334-339):
active tokens owned by `'CB'`, sorted by denomination descending. -/
def cbAvailable (db : DB) : List Token :=
  sortTokDesc (db.tokens.filter
    (fun t => decide (t.current_owner = "CB" ∧ t.status = TokenStatus.active)))

/-- The descending greedy selection loop of `allocate_tokens_to_fi`
(database.py lines 342-348): walk tokens, stopping once the running total
reaches `amount`. -/
def greedyTok (amount : Int) : List Token → Int → List Token × Int
  | [], total => ([], total)
  | t :: ts, total =>
      if amount ≤ total then ([], total)
      else
        let p := greedyTok amount ts (total + (t.denomination : Int))
        (t :: p.1, p.2)

/-- The ascending exact-subset pass of `allocate_tokens_to_fi`
(database.py lines 364-369): keep a token only when it does not push the
total past `amount`. -/
def ascendSelect (amount : Int) : List Token → Int → List Token × Int
  | [], total => ([], total)
  | t :: ts, total =>
      if total + (t.denomination : Int) ≤ amount then
        let p := ascendSelect amount ts (total + (t.denomination : Int))
        (t :: p.1, p.2)
      else ascendSelect amount ts total

/-- The per-serial ownership `UPDATE` of the allocation commit
(database.py lines 383-387). -/
def applyAlloc (tokens : List Token) (serials : List Nat) (fi : String)
    (ts : Nat) : List Token :=
  tokens.map (fun t =>
    if decide (t.serial ∈ serials) then
      { t with current_owner := fi, owner_type := "fi",
               last_transfer_at := some ts }
    else t)

inductive AllocResult
  | ok (amount : Nat) (serials : List Nat) (txId : Nat)
  | fiNotFound
  | mintFailed (e : MintResult)
  | closedConnCrash
  | outOfFuel
deriving DecidableEq

/-- Commit step of a successful allocation: update ownership of the
selected rows and append one `'allocation'` ledger row. -/
def allocCommit (db : DB) (fi_id : String) (selected : List Token)
    (total : Nat) : DB × AllocResult :=
  let ts := db.clock
  let serials := selected.map Token.serial
  ({ db with
      tokens := applyAlloc db.tokens serials fi_id ts
      ledger := db.ledger ++
        [⟨db.nextTx, "allocation", "CB", fi_id, serials, total, ts⟩]
      nextTx := db.nextTx + 1
      clock := db.clock + 1 },
   AllocResult.ok total serials db.nextTx)

/-- Embeds `allocate_tokens_to_fi(fi_id, amount)` (database.py lines
321-413), with the self-recursion made structural on a fuel argument
(the termination development below shows fuel 2 is never exhausted, so
the fueled function agrees with the source recursion wherever the latter
returns).
Control flow, in source order: unknown FI fails; a descending greedy pass
that cannot reach `amount` closes the connection (no writes are pending),
mints the shortfall via `mint_mixed_tokens` and retries; an overshooting
greedy pass is replaced by an ascending exact-subset pass; if that pass
also falls short the code closes the connection, mints the full `amount`,
and then keeps using the cursor of the closed connection — the next
`UPDATE` raises `sqlite3.ProgrammingError`, modeled as
`closedConnCrash` (the mint is already committed on its own connection;
nothing else is written). -/
def allocateFuel : Nat → DB → String → Int → DB × AllocResult
  | 0, db, _, _ => (db, AllocResult.outOfFuel)
  | fuel + 1, db, fi_id, amount =>
      if fi_id ∉ db.fis then (db, AllocResult.fiNotFound)
      else
        let available := cbAvailable db
        let g := greedyTok amount available 0
        if g.2 < amount then
          let m := mint_mixed_tokens db (amount - g.2)
          match m.2 with
          | MintResult.ok _ _ _ => allocateFuel fuel m.1 fi_id amount
          | e => (m.1, AllocResult.mintFailed e)
        else if amount < g.2 then
          let a := ascendSelect amount (sortTokAsc available) 0
          if a.2 < amount then
            let m := mint_mixed_tokens db amount
            match m.2 with
            | MintResult.ok _ _ _ => (m.1, AllocResult.closedConnCrash)
            | e => (m.1, AllocResult.mintFailed e)
          else allocCommit db fi_id a.1 a.2.toNat
        else allocCommit db fi_id g.1 g.2.toNat

def allocate_tokens_to_fi (db : DB) (fi_id : String) (amount : Int) :
    DB × AllocResult :=
  allocateFuel 2 db fi_id amount

inductive TransferResult
  | ok (txId : Nat) (amount : Nat)
  | notOwned (serial : Nat)
deriving DecidableEq

/-- The ownership check of `transfer_tokens_between_fis`
(database.py lines 523-526): the row with this serial owned by `owner`
(the serial column is the primary key). -/
def findToken (tokens : List Token) (serial : Nat) (owner : String) :
    Option Token :=
  tokens.find? (fun t => decide (t.serial = serial ∧ t.current_owner = owner))

/-- The per-serial `UPDATE` of `transfer_tokens_between_fis`
(database.py lines 534-537): set owner and transfer time; `owner_type`
and `status` are left unchanged. -/
def applyTransfer (tokens : List Token) (serial : Nat) (dst : String)
    (ts : Nat) : List Token :=
  tokens.map (fun t =>
    if t.serial = serial then
      { t with current_owner := dst, last_transfer_at := some ts }
    else t)

/-- The serial loop of `transfer_tokens_between_fis`: verify-then-update
each serial against the connection's uncommitted state; the first failing
serial aborts.  Returns the draft rows and the accumulated total. -/
def transferLoop (from_fi to_fi : String) (ts : Nat) :
    List Nat → List Token → Except Nat (List Token × Nat)
  | [], tokens => Except.ok (tokens, 0)
  | s :: rest, tokens =>
      match findToken tokens s from_fi with
      | none => Except.error s
      | some t =>
          match transferLoop from_fi to_fi ts rest (applyTransfer tokens s to_fi ts) with
          | Except.error e => Except.error e
          | Except.ok (fin, tot) => Except.ok (fin, t.denomination + tot)

/-- Embeds `transfer_tokens_between_fis(from_fi, to_fi, token_serials)`
(database.py lines 514-556).  On a failing serial the function returns
with `conn.close()` and no `conn.commit()`, so every pending `UPDATE` is
rolled back: the committed state is unchanged.  On success one
`'cross_fi_transfer'` ledger row is appended and everything commits. -/
def transfer_tokens_between_fis (db : DB) (from_fi to_fi : String)
    (serials : List Nat) : DB × TransferResult :=
  let ts := db.clock
  match transferLoop from_fi to_fi ts serials db.tokens with
  | Except.error s => (db, TransferResult.notOwned s)
  | Except.ok (toks, total) =>
      ({ db with
          tokens := toks
          ledger := db.ledger ++
            [⟨db.nextTx, "cross_fi_transfer", from_fi, to_fi, serials, total, ts⟩]
          nextTx := db.nextTx + 1
          clock := db.clock + 1 },
       TransferResult.ok db.nextTx total)

/-- The report of `get_money_supply` (database.py lines 432-477). -/
structure MoneySupply where
  total_minted : Nat
  in_cb_vault : Nat
  in_fis : Nat
  in_wallets : Nat
  in_subwallets : Nat
  is_balanced : Bool
deriving DecidableEq

/-- Sum of denominations over the rows satisfying a predicate
(the `SELECT SUM(denomination) ... WHERE ...` aggregations). -/
def sumBy (tokens : List Token) (p : Token → Bool) : Nat :=
  ((tokens.filter p).map Token.denomination).sum

/-- Embeds `get_money_supply()` (database.py lines 432-477):
`total_minted` sums every non-destroyed row; the four tier totals sum
active rows by owner; `is_balanced` compares their sum with
`total_minted`. -/
def get_money_supply (db : DB) : MoneySupply :=
  let tm := sumBy db.tokens (fun t => decide (t.status ≠ TokenStatus.destroyed))
  let cb := sumBy db.tokens
    (fun t => decide (t.current_owner = "CB" ∧ t.status = TokenStatus.active))
  let fi := sumBy db.tokens
    (fun t => decide (t.owner_type = "fi" ∧ t.status = TokenStatus.active))
  let w := sumBy db.tokens
    (fun t => decide (t.owner_type = "wallet" ∧ t.status = TokenStatus.active))
  let sw := sumBy db.tokens
    (fun t => decide (t.owner_type = "subwallet" ∧ t.status = TokenStatus.active))
  ⟨tm, cb, fi, w, sw, decide (cb + fi + w + sw = tm)⟩

/-- Sum of denominations of the active rows (the spec's
`sum(active token denominations)`). -/
def activeSum (db : DB) : Nat :=
  sumBy db.tokens (fun t => decide (t.status = TokenStatus.active))

/-! ## Operation sequences over the central-bank database (C1) -/

/-- One call to a mutating endpoint of database.py. -/
inductive Op
  | mint (denomination count : Nat)
  | mintSpecific (counts : List (Nat × Nat))
  | mintMixed (amount : Int)
  | register (fi : String)
  | alloc (fi : String) (amount : Int)
  | transfer (from_fi to_fi : String) (serials : List Nat)

/-- State after one endpoint call (results are returned to the HTTP layer
and do not affect the stored state). -/
def applyOp (db : DB) : Op → DB
  | Op.mint d c => (mint_tokens db d c).1
  | Op.mintSpecific l => (mint_specific_denominations db l).1
  | Op.mintMixed a => (mint_mixed_tokens db a).1
  | Op.register f => (register_fi db f).1
  | Op.alloc f a => (allocate_tokens_to_fi db f a).1
  | Op.transfer f t s => (transfer_tokens_between_fis db f t s).1

/-- State reached from the freshly initialized database by a sequence of
endpoint calls. -/
def runOps (ops : List Op) : DB := ops.foldl applyOp emptyDB

/-- The operations that keep the supply report balanced: transfers must
not name the vault owner `'CB'` as either endpoint, and `'CB'` must not be
registered as a financial institution (`transfer_tokens_between_fis`
itself never validates its entity arguments). -/
def goodOp : Op → Bool
  | Op.register f => decide (f ≠ "CB")
  | Op.transfer f t _ => decide (f ≠ "CB") && decide (t ≠ "CB")
  | _ => true

/-- State invariant maintained by good operation sequences: every row is
active and is either vault-owned (`'CB'`/`'cb'`) or institution-owned
(`owner_type = 'fi'`, owner distinct from `'CB'`); `'CB'` is not a
registered FI; serials are unique and below the freshness counter. -/
def Inv (db : DB) : Prop :=
  (∀ t ∈ db.tokens, t.status = TokenStatus.active ∧
      ((t.current_owner = "CB" ∧ t.owner_type = "cb") ∨
        (t.current_owner ≠ "CB" ∧ t.owner_type = "fi"))) ∧
  "CB" ∉ db.fis ∧
  (db.tokens.map Token.serial).Nodup ∧
  ∀ t ∈ db.tokens, t.serial < db.nextSerial

theorem mkTokens_forall (ts b : Nat) :
    ∀ ds s, ∀ t ∈ mkTokens s ds ts b,
      t.status = TokenStatus.active ∧ t.current_owner = "CB" ∧
        t.owner_type = "cb" ∧ s ≤ t.serial ∧ t.serial < s + ds.length := by
  intro ds
  induction ds with
  | nil => intro s t ht; simp [mkTokens] at ht
  | cons d ds ih =>
      intro s t ht
      rw [mkTokens] at ht
      rcases List.mem_cons.mp ht with rfl | ht
      · exact ⟨rfl, rfl, rfl, Nat.le_refl _, by simp only [List.length_cons]; omega⟩
      · obtain ⟨h1, h2, h3, h4, h5⟩ := ih (s + 1) t ht
        exact ⟨h1, h2, h3, by omega, by simp only [List.length_cons]; omega⟩

theorem mkTokens_serials (ts b : Nat) :
    ∀ ds s, (mkTokens s ds ts b).map Token.serial = List.range' s ds.length := by
  intro ds
  induction ds with
  | nil => intro s; simp [mkTokens]
  | cons d ds ih =>
      intro s
      rw [mkTokens, List.map_cons, ih (s + 1), List.length_cons,
        List.range'_succ]

theorem mkTokens_sum (ts b : Nat) :
    ∀ ds s, ((mkTokens s ds ts b).map Token.denomination).sum = ds.sum := by
  intro ds
  induction ds with
  | nil => intro s; simp [mkTokens]
  | cons d ds ih =>
      intro s
      rw [mkTokens, List.map_cons, List.sum_cons, ih (s + 1), List.sum_cons]

theorem insertTokDesc_perm (t : Token) (l : List Token) :
    List.Perm (insertTokDesc t l) (t :: l) := by
  induction l with
  | nil => simp [insertTokDesc]
  | cons u us ih =>
      rw [insertTokDesc]
      by_cases h : u.denomination < t.denomination
      · rw [if_pos h]
      · rw [if_neg h]
        exact List.Perm.trans (List.Perm.cons u ih) (List.Perm.swap t u us)

theorem sortTokDesc_perm (l : List Token) :
    List.Perm (sortTokDesc l) l := by
  induction l with
  | nil => simp [sortTokDesc]
  | cons t ts ih =>
      rw [sortTokDesc]
      exact List.Perm.trans (insertTokDesc_perm t (sortTokDesc ts))
        (List.Perm.cons t ih)

theorem insertTokAsc_perm (t : Token) (l : List Token) :
    List.Perm (insertTokAsc t l) (t :: l) := by
  induction l with
  | nil => simp [insertTokAsc]
  | cons u us ih =>
      rw [insertTokAsc]
      by_cases h : t.denomination < u.denomination
      · rw [if_pos h]
      · rw [if_neg h]
        exact List.Perm.trans (List.Perm.cons u ih) (List.Perm.swap t u us)

theorem sortTokAsc_perm (l : List Token) :
    List.Perm (sortTokAsc l) l := by
  induction l with
  | nil => simp [sortTokAsc]
  | cons t ts ih =>
      rw [sortTokAsc]
      exact List.Perm.trans (insertTokAsc_perm t (sortTokAsc ts))
        (List.Perm.cons t ih)

/-- Sum of denominations of a token row list. -/
def tokSum (ts : List Token) : Nat := (ts.map Token.denomination).sum

theorem sortTokDesc_sum (l : List Token) : tokSum (sortTokDesc l) = tokSum l :=
  List.Perm.sum_eq ((sortTokDesc_perm l).map Token.denomination)

theorem applyAlloc_serials (tokens : List Token) (serials : List Nat)
    (fi : String) (ts : Nat) :
    (applyAlloc tokens serials fi ts).map Token.serial =
      tokens.map Token.serial := by
  unfold applyAlloc
  rw [List.map_map]
  apply List.map_congr_left
  intro t _
  simp only [Function.comp_apply]
  split <;> rfl

theorem applyTransfer_serials (tokens : List Token) (serial : Nat)
    (dst : String) (ts : Nat) :
    (applyTransfer tokens serial dst ts).map Token.serial =
      tokens.map Token.serial := by
  unfold applyTransfer
  rw [List.map_map]
  apply List.map_congr_left
  intro t _
  simp only [Function.comp_apply]
  split <;> rfl

/-! ## Branch equations of `allocate_tokens_to_fi` -/

theorem mint_mixed_pos (db : DB) (a : Int) (ha : 0 < a) :
    mint_mixed_tokens db a = mintCommit db (make_change a) 0 a.toNat := by
  have hsum : ((make_change a).sum : Int) = a := (make_change_spec a ha).1
  simp only [mint_mixed_tokens]
  rw [if_neg (by omega : ¬ a ≤ 0), if_neg (by omega : ¬ ((make_change a).sum : Int) ≠ a)]

theorem mint_mixed_pos_snd (db : DB) (a : Int) (ha : 0 < a) :
    (mint_mixed_tokens db a).2 =
      MintResult.ok db.nextBatch a.toNat
        ((mkTokens db.nextSerial (make_change a) db.clock db.nextBatch).map
          Token.serial) := by
  rw [mint_mixed_pos db a ha]
  simp [mintCommit]

theorem mint_mixed_fis (db : DB) (a : Int) :
    (mint_mixed_tokens db a).1.fis = db.fis := by
  simp only [mint_mixed_tokens]
  split
  · rfl
  · split
    · rfl
    · simp [mintCommit]

theorem ascendSelect_nonneg (amount : Int) :
    ∀ ts total, (0 : Int) ≤ total → 0 ≤ (ascendSelect amount ts total).2 := by
  intro ts
  induction ts with
  | nil => intro total h; simpa [ascendSelect] using h
  | cons t ts ih =>
      intro total h
      rw [ascendSelect]
      by_cases hc : total + (t.denomination : Int) ≤ amount
      · rw [if_pos hc]
        exact ih (total + (t.denomination : Int)) (by positivity)
      · rw [if_neg hc]
        exact ih total h

theorem greedyTok_total (amount : Int) :
    ∀ ts total, (greedyTok amount ts total).2 =
      total + ((tokSum (greedyTok amount ts total).1 : Nat) : Int) := by
  intro ts
  induction ts with
  | nil => intro total; simp [greedyTok, tokSum]
  | cons t ts ih =>
      intro total
      rw [greedyTok]
      by_cases h : amount ≤ total
      · rw [if_pos h]; simp [tokSum]
      · rw [if_neg h]
        simp only [tokSum, List.map_cons, List.sum_cons]
        rw [ih (total + (t.denomination : Int))]
        simp only [tokSum]
        push_cast
        ring

theorem greedyTok_exhausts (amount : Int) :
    ∀ ts total, (greedyTok amount ts total).2 < amount →
      (greedyTok amount ts total).1 = ts := by
  intro ts
  induction ts with
  | nil => intro total _; simp [greedyTok]
  | cons t ts ih =>
      intro total hlt
      rw [greedyTok] at hlt ⊢
      by_cases h : amount ≤ total
      · rw [if_pos h] at hlt
        exact absurd hlt (by omega)
      · rw [if_neg h] at hlt ⊢
        simp only at hlt ⊢
        rw [ih (total + (t.denomination : Int)) hlt]

theorem tokSum_cbAvailable_mintCommit (db : DB) (denoms : List Nat)
    (bd total : Nat) :
    tokSum (cbAvailable (mintCommit db denoms bd total).1) =
      tokSum (cbAvailable db) + denoms.sum := by
  have hnew : ∀ t ∈ mkTokens db.nextSerial denoms db.clock db.nextBatch,
      (fun t => decide (t.current_owner = "CB" ∧
        t.status = TokenStatus.active)) t = true := by
    intro t ht
    obtain ⟨h1, h2, _⟩ := mkTokens_forall db.clock db.nextBatch denoms db.nextSerial t ht
    simp [h1, h2]
  simp only [cbAvailable, mintCommit]
  rw [sortTokDesc_sum, sortTokDesc_sum, List.filter_append,
    List.filter_eq_self.mpr hnew]
  simp only [tokSum, List.map_append, List.sum_append]
  rw [mkTokens_sum]

theorem allocateFuel_notFound (fuel : Nat) (db : DB) (fi_id : String)
    (amount : Int) (hfi : fi_id ∉ db.fis) :
    allocateFuel (fuel + 1) db fi_id amount = (db, AllocResult.fiNotFound) := by
  rw [allocateFuel]
  rw [if_pos hfi]

theorem allocateFuel_under (fuel : Nat) (db : DB) (fi_id : String)
    (amount : Int) (hfi : ¬ fi_id ∉ db.fis)
    (hu : (greedyTok amount (cbAvailable db) 0).2 < amount) :
    allocateFuel (fuel + 1) db fi_id amount =
      allocateFuel fuel
        (mint_mixed_tokens db
          (amount - (greedyTok amount (cbAvailable db) 0).2)).1 fi_id amount := by
  rw [allocateFuel]
  simp only [hfi, hu, if_true, if_false, ite_true, ite_false]
  rw [mint_mixed_pos_snd db _ (by omega)]

theorem allocateFuel_overshoot_crash (fuel : Nat) (db : DB) (fi_id : String)
    (amount : Int) (hfi : ¬ fi_id ∉ db.fis)
    (hnu : ¬ (greedyTok amount (cbAvailable db) 0).2 < amount)
    (hov : amount < (greedyTok amount (cbAvailable db) 0).2)
    (has : (ascendSelect amount (sortTokAsc (cbAvailable db)) 0).2 < amount) :
    allocateFuel (fuel + 1) db fi_id amount =
      ((mint_mixed_tokens db amount).1, AllocResult.closedConnCrash) := by
  have hpos : (0 : Int) < amount := by
    have := ascendSelect_nonneg amount (sortTokAsc (cbAvailable db)) 0 (le_refl 0)
    omega
  rw [allocateFuel]
  simp only [hfi, hnu, hov, has, if_true, if_false, ite_true, ite_false]
  rw [mint_mixed_pos_snd db _ hpos]

theorem allocateFuel_overshoot_commit (fuel : Nat) (db : DB) (fi_id : String)
    (amount : Int) (hfi : ¬ fi_id ∉ db.fis)
    (hnu : ¬ (greedyTok amount (cbAvailable db) 0).2 < amount)
    (hov : amount < (greedyTok amount (cbAvailable db) 0).2)
    (has : ¬ (ascendSelect amount (sortTokAsc (cbAvailable db)) 0).2 < amount) :
    allocateFuel (fuel + 1) db fi_id amount =
      allocCommit db fi_id (ascendSelect amount (sortTokAsc (cbAvailable db)) 0).1
        (ascendSelect amount (sortTokAsc (cbAvailable db)) 0).2.toNat := by
  rw [allocateFuel]
  simp only [hfi, hnu, hov, has, if_true, if_false, ite_true, ite_false]

theorem allocateFuel_exact (fuel : Nat) (db : DB) (fi_id : String)
    (amount : Int) (hfi : ¬ fi_id ∉ db.fis)
    (hnu : ¬ (greedyTok amount (cbAvailable db) 0).2 < amount)
    (hov : ¬ amount < (greedyTok amount (cbAvailable db) 0).2) :
    allocateFuel (fuel + 1) db fi_id amount =
      allocCommit db fi_id (greedyTok amount (cbAvailable db) 0).1
        (greedyTok amount (cbAvailable db) 0).2.toNat := by
  rw [allocateFuel]
  simp only [hfi, hnu, hov, if_true, if_false, ite_true, ite_false]

/-- After the shortfall mint of the undershoot branch, the vault pool sums
to exactly the requested amount, so the retried greedy pass reaches it:
the recursion cannot take the undershoot branch twice. -/
theorem no_second_undershoot (db : DB) (amount : Int)
    (hu : (greedyTok amount (cbAvailable db) 0).2 < amount) :
    ¬ (greedyTok amount
        (cbAvailable (mint_mixed_tokens db
          (amount - (greedyTok amount (cbAvailable db) 0).2)).1) 0).2 < amount := by
  intro hu2
  have h1 : (greedyTok amount (cbAvailable db) 0).1 = cbAvailable db :=
    greedyTok_exhausts amount (cbAvailable db) 0 hu
  have h2 := greedyTok_total amount (cbAvailable db) 0
  rw [h1] at h2
  have hs : (0 : Int) < amount - (greedyTok amount (cbAvailable db) 0).2 := by omega
  rw [mint_mixed_pos db _ hs] at hu2
  have h2' := greedyTok_total amount
    (cbAvailable (mintCommit db
      (make_change (amount - (greedyTok amount (cbAvailable db) 0).2)) 0
      (amount - (greedyTok amount (cbAvailable db) 0).2).toNat).1) 0
  have h1' := greedyTok_exhausts amount
    (cbAvailable (mintCommit db
      (make_change (amount - (greedyTok amount (cbAvailable db) 0).2)) 0
      (amount - (greedyTok amount (cbAvailable db) 0).2).toNat).1) 0 hu2
  rw [h1'] at h2'
  have hsum := tokSum_cbAvailable_mintCommit db
    (make_change (amount - (greedyTok amount (cbAvailable db) 0).2)) 0
    (amount - (greedyTok amount (cbAvailable db) 0).2).toNat
  have hmc : ((make_change (amount - (greedyTok amount (cbAvailable db) 0).2)).sum : Int) =
      amount - (greedyTok amount (cbAvailable db) 0).2 :=
    (make_change_spec _ hs).1
  omega

/-! ## Preservation of the state invariant -/

theorem inv_emptyDB : Inv emptyDB := by
  simp [Inv, emptyDB]

theorem inv_mintCommit (db : DB) (denoms : List Nat) (bd total : Nat)
    (h : Inv db) : Inv (mintCommit db denoms bd total).1 := by
  obtain ⟨hTok, hCB, hNodup, hBound⟩ := h
  simp only [mintCommit]
  refine ⟨?_, hCB, ?_, ?_⟩
  · intro t ht
    rcases List.mem_append.mp ht with ht | ht
    · exact hTok t ht
    · obtain ⟨h1, h2, h3, _, _⟩ :=
        mkTokens_forall db.clock db.nextBatch denoms db.nextSerial t ht
      exact ⟨h1, Or.inl ⟨h2, h3⟩⟩
  · rw [List.map_append, mkTokens_serials]
    refine List.Nodup.append hNodup
      (List.nodup_range' db.nextSerial denoms.length 1 (by norm_num)) ?_
    intro a ha hb
    obtain ⟨u, hu, he⟩ := List.mem_map.mp ha
    have h1 := hBound u hu
    have h2 := (List.mem_range'_1.mp hb).1
    omega
  · intro t ht
    show t.serial < db.nextSerial + denoms.length
    rcases List.mem_append.mp ht with ht | ht
    · have := hBound t ht
      omega
    · obtain ⟨_, _, _, _, h5⟩ :=
        mkTokens_forall db.clock db.nextBatch denoms db.nextSerial t ht
      omega

theorem inv_mint_tokens (db : DB) (d c : Nat) (h : Inv db) :
    Inv (mint_tokens db d c).1 := by
  unfold mint_tokens
  split_ifs with h1 h2 <;>
    first
      | exact h
      | exact inv_mintCommit _ _ _ _ h

theorem inv_mint_specific (db : DB) (counts : List (Nat × Nat)) (h : Inv db) :
    Inv (mint_specific_denominations db counts).1 := by
  unfold mint_specific_denominations
  rcases hv : validateCounts counts with _ | e
  · simp only [hv]
    exact inv_mintCommit _ _ _ _ h
  · simp only [hv]
    exact h

theorem inv_mint_mixed (db : DB) (a : Int) (h : Inv db) :
    Inv (mint_mixed_tokens db a).1 := by
  simp only [mint_mixed_tokens]
  split_ifs with h1 h2 <;>
    first
      | exact h
      | exact inv_mintCommit _ _ _ _ h

theorem inv_register (db : DB) (f : String) (h : Inv db) (hf : f ≠ "CB") :
    Inv (register_fi db f).1 := by
  unfold register_fi
  split_ifs with h1
  · exact h
  · obtain ⟨hTok, hCB, hN, hB⟩ := h
    refine ⟨hTok, ?_, hN, hB⟩
    simp only [List.mem_append, List.mem_singleton]
    rintro (hc | hc)
    · exact hCB hc
    · exact hf hc.symm

theorem inv_allocCommit (db : DB) (fi : String) (selected : List Token)
    (total : Nat) (h : Inv db) (hfi : fi ≠ "CB") :
    Inv (allocCommit db fi selected total).1 := by
  obtain ⟨hTok, hCB, hN, hB⟩ := h
  simp only [allocCommit]
  refine ⟨?_, hCB, ?_, ?_⟩
  · intro t ht
    obtain ⟨u, hu, he⟩ := List.mem_map.mp ht
    obtain ⟨hu1, hu2⟩ := hTok u hu
    rw [← he]
    split
    · exact ⟨hu1, Or.inr ⟨hfi, rfl⟩⟩
    · exact ⟨hu1, hu2⟩
  · rw [applyAlloc_serials]
    exact hN
  · intro t ht
    have hser : t.serial ∈
        (applyAlloc db.tokens (selected.map Token.serial) fi db.clock).map
          Token.serial :=
      List.mem_map_of_mem _ ht
    rw [applyAlloc_serials] at hser
    obtain ⟨u, hu, he⟩ := List.mem_map.mp hser
    have := hB u hu
    show t.serial < db.nextSerial
    omega

theorem inv_allocateFuel :
    ∀ fuel db fi amount, Inv db → Inv (allocateFuel fuel db fi amount).1 := by
  intro fuel
  induction fuel with
  | zero => intro db fi amount h; exact h
  | succ fuel ih =>
      intro db fi amount h
      by_cases hfi : fi ∉ db.fis
      · rw [allocateFuel_notFound fuel db fi amount hfi]
        exact h
      · have hfi' : fi ∈ db.fis := not_not.mp hfi
        have hne : fi ≠ "CB" := fun he => h.2.1 (he ▸ hfi')
        by_cases hu : (greedyTok amount (cbAvailable db) 0).2 < amount
        · rw [allocateFuel_under fuel db fi amount hfi hu]
          exact ih _ fi amount (inv_mint_mixed _ _ h)
        · by_cases hov : amount < (greedyTok amount (cbAvailable db) 0).2
          · by_cases has :
                (ascendSelect amount (sortTokAsc (cbAvailable db)) 0).2 < amount
            · rw [allocateFuel_overshoot_crash fuel db fi amount hfi hu hov has]
              exact inv_mint_mixed _ _ h
            · rw [allocateFuel_overshoot_commit fuel db fi amount hfi hu hov has]
              exact inv_allocCommit _ _ _ _ h hne
          · rw [allocateFuel_exact fuel db fi amount hfi hu hov]
            exact inv_allocCommit _ _ _ _ h hne

theorem transferLoop_inv (from_fi to_fi : String) (ts : Nat)
    (hfrom : from_fi ≠ "CB") (hto : to_fi ≠ "CB") :
    ∀ serials tokens draft total,
      (∀ t ∈ tokens, t.status = TokenStatus.active ∧
        ((t.current_owner = "CB" ∧ t.owner_type = "cb") ∨
          (t.current_owner ≠ "CB" ∧ t.owner_type = "fi"))) →
      (tokens.map Token.serial).Nodup →
      transferLoop from_fi to_fi ts serials tokens = Except.ok (draft, total) →
      (∀ t ∈ draft, t.status = TokenStatus.active ∧
        ((t.current_owner = "CB" ∧ t.owner_type = "cb") ∨
          (t.current_owner ≠ "CB" ∧ t.owner_type = "fi"))) ∧
      draft.map Token.serial = tokens.map Token.serial := by
  intro serials
  induction serials with
  | nil =>
      intro tokens draft total hTok hN heq
      simp only [transferLoop, Except.ok.injEq, Prod.mk.injEq] at heq
      obtain ⟨h1, _⟩ := heq
      subst h1
      exact ⟨hTok, rfl⟩
  | cons s rest ih =>
      intro tokens draft total hTok hN heq
      rw [transferLoop] at heq
      rcases hf : findToken tokens s from_fi with _ | tk
      · rw [hf] at heq
        exact absurd heq (by simp)
      · rw [hf] at heq
        rcases hrec : transferLoop from_fi to_fi ts rest
            (applyTransfer tokens s to_fi ts) with e | ⟨fin, tot⟩
        · rw [hrec] at heq
          exact absurd heq (by simp)
        · rw [hrec] at heq
          simp only [Except.ok.injEq, Prod.mk.injEq] at heq
          obtain ⟨h1, _⟩ := heq
          subst h1
          have hf' : tokens.find?
              (fun t => decide (t.serial = s ∧ t.current_owner = from_fi)) =
                some tk := hf
          have htk_mem : tk ∈ tokens := List.mem_of_find?_eq_some hf'
          have htk_p := List.find?_some hf'
          simp only [decide_eq_true_eq] at htk_p
          obtain ⟨htk_s, htk_o⟩ := htk_p
          have hTok' : ∀ t ∈ applyTransfer tokens s to_fi ts,
              t.status = TokenStatus.active ∧
              ((t.current_owner = "CB" ∧ t.owner_type = "cb") ∨
                (t.current_owner ≠ "CB" ∧ t.owner_type = "fi")) := by
            intro t ht
            obtain ⟨u, hu, he⟩ := List.mem_map.mp ht
            obtain ⟨hu1, hu2⟩ := hTok u hu
            rw [← he]
            by_cases hc : u.serial = s
            · rw [if_pos hc]
              have hutk : u = tk :=
                List.inj_on_of_nodup_map hN hu htk_mem (by rw [hc, htk_s])
              have huo : u.current_owner = from_fi := by rw [hutk, htk_o]
              have hune : u.current_owner ≠ "CB" := by rw [huo]; exact hfrom
              rcases hu2 with ⟨hcb, _⟩ | ⟨_, hty⟩
              · exact absurd hcb hune
              · exact ⟨hu1, Or.inr ⟨hto, hty⟩⟩
            · rw [if_neg hc]
              exact ⟨hu1, hu2⟩
          have hN' : ((applyTransfer tokens s to_fi ts).map Token.serial).Nodup := by
            rw [applyTransfer_serials]
            exact hN
          obtain ⟨hd1, hd2⟩ := ih (applyTransfer tokens s to_fi ts) fin tot
            hTok' hN' hrec
          refine ⟨hd1, ?_⟩
          rw [hd2, applyTransfer_serials]

theorem inv_transfer (db : DB) (from_fi to_fi : String) (serials : List Nat)
    (h : Inv db) (hfrom : from_fi ≠ "CB") (hto : to_fi ≠ "CB") :
    Inv (transfer_tokens_between_fis db from_fi to_fi serials).1 := by
  obtain ⟨hTok, hCB, hN, hB⟩ := h
  unfold transfer_tokens_between_fis
  rcases hr : transferLoop from_fi to_fi db.clock serials db.tokens
      with e | ⟨toks, total⟩
  · simp only [hr]
    exact ⟨hTok, hCB, hN, hB⟩
  · simp only [hr]
    obtain ⟨hd1, hd2⟩ := transferLoop_inv from_fi to_fi db.clock hfrom hto
      serials db.tokens toks total hTok hN hr
    refine ⟨hd1, hCB, ?_, ?_⟩
    · rw [hd2]
      exact hN
    · intro t ht
      have hser : t.serial ∈ toks.map Token.serial := List.mem_map_of_mem _ ht
      rw [hd2] at hser
      obtain ⟨u, hu, he⟩ := List.mem_map.mp hser
      have := hB u hu
      show t.serial < db.nextSerial
      omega

theorem inv_applyOp (db : DB) (op : Op) (h : Inv db) (hg : goodOp op = true) :
    Inv (applyOp db op) := by
  cases op with
  | mint d c => exact inv_mint_tokens db d c h
  | mintSpecific l => exact inv_mint_specific db l h
  | mintMixed a => exact inv_mint_mixed db a h
  | register f =>
      simp only [goodOp, decide_eq_true_eq] at hg
      exact inv_register db f h hg
  | alloc f a => exact inv_allocateFuel 2 db f a h
  | transfer f t s =>
      simp only [goodOp, Bool.and_eq_true, decide_eq_true_eq] at hg
      exact inv_transfer db f t s h hg.1 hg.2

theorem inv_runOps_aux :
    ∀ (ops : List Op) (db : DB), Inv db → (∀ op ∈ ops, goodOp op = true) →
      Inv (ops.foldl applyOp db) := by
  intro ops
  induction ops with
  | nil => intro db h _; exact h
  | cons op ops ih =>
      intro db h hg
      rw [List.foldl_cons]
      exact ih (applyOp db op)
        (inv_applyOp db op h (hg op (List.mem_cons_self op ops)))
        (fun o ho => hg o (List.mem_cons_of_mem op ho))

theorem inv_runOps (ops : List Op) (hg : ∀ op ∈ ops, goodOp op = true) :
    Inv (runOps ops) :=
  inv_runOps_aux ops emptyDB inv_emptyDB hg

/-- Splitting the supply sums over a list of rows satisfying the token
invariant: every row is active and counts in exactly one of the four tier
aggregations, so the tiers partition the non-destroyed total and the
active total equals the non-destroyed total. -/
theorem tokInv_sums (tokens : List Token)
    (h : ∀ t ∈ tokens, t.status = TokenStatus.active ∧
      ((t.current_owner = "CB" ∧ t.owner_type = "cb") ∨
        (t.current_owner ≠ "CB" ∧ t.owner_type = "fi"))) :
    sumBy tokens
        (fun t => decide (t.current_owner = "CB" ∧ t.status = TokenStatus.active)) +
      sumBy tokens
        (fun t => decide (t.owner_type = "fi" ∧ t.status = TokenStatus.active)) +
      sumBy tokens
        (fun t => decide (t.owner_type = "wallet" ∧ t.status = TokenStatus.active)) +
      sumBy tokens
        (fun t => decide (t.owner_type = "subwallet" ∧ t.status = TokenStatus.active)) =
      sumBy tokens (fun t => decide (t.status ≠ TokenStatus.destroyed)) ∧
    sumBy tokens (fun t => decide (t.status = TokenStatus.active)) =
      sumBy tokens (fun t => decide (t.status ≠ TokenStatus.destroyed)) := by
  induction tokens with
  | nil => simp [sumBy]
  | cons t ts ih =>
      have hts : ∀ u ∈ ts, u.status = TokenStatus.active ∧
          ((u.current_owner = "CB" ∧ u.owner_type = "cb") ∨
            (u.current_owner ≠ "CB" ∧ u.owner_type = "fi")) :=
        fun u hu => h u (List.mem_cons_of_mem t hu)
      obtain ⟨hst, hcase⟩ := h t (List.mem_cons_self t ts)
      obtain ⟨ih1, ih2⟩ := ih hts
      rcases hcase with ⟨hco, hot⟩ | ⟨hco, hot⟩ <;>
        · simp [sumBy, List.filter_cons, hst, hco, hot] at ih1 ih2 ⊢
          omega

/-- C1, amended.  For every sequence of register, mint (all three
endpoints), allocate and transfer operations from the empty database in
which no transfer names `'CB'` as an endpoint and `'CB'` is never
registered as an FI, the supply report is balanced and the active total
equals `total_minted` (rows are append-only and never destroyed, so the
code's `total_minted` aggregation is exactly total ever minted minus
total destroyed; instantiating `ops` with each prefix of a sequence gives
the property at every observation point). -/
theorem money_conservation (ops : List Op)
    (hg : ∀ op ∈ ops, goodOp op = true) :
    (get_money_supply (runOps ops)).is_balanced = true ∧
    activeSum (runOps ops) = (get_money_supply (runOps ops)).total_minted := by
  obtain ⟨hTok, _, _, _⟩ := inv_runOps ops hg
  obtain ⟨h1, h2⟩ := tokInv_sums (runOps ops).tokens hTok
  constructor
  · simp only [get_money_supply]
    exact decide_eq_true h1
  · simp only [get_money_supply, activeSum]
    exact h2

/-- Witness for C1 (amended) at the sequence register, mint 2×₹100,
allocate ₹200, transfer one serial between two FIs. -/
theorem money_conservation_witness :
    (get_money_supply (runOps [Op.register "A", Op.mint 100 2,
      Op.alloc "A" 200, Op.transfer "A" "B" [0]])).is_balanced = true ∧
    activeSum (runOps [Op.register "A", Op.mint 100 2,
      Op.alloc "A" 200, Op.transfer "A" "B" [0]]) =
      (get_money_supply (runOps [Op.register "A", Op.mint 100 2,
        Op.alloc "A" 200, Op.transfer "A" "B" [0]])).total_minted :=
  money_conservation
    [Op.register "A", Op.mint 100 2, Op.alloc "A" 200, Op.transfer "A" "B" [0]]
    (by decide)

/-- C1, counterexample to the claim as stated: `transfer_tokens_between_fis`
accepts `'CB'` as the sending entity (it validates nothing about its
entity arguments), and the sequence mint ₹100, transfer the fresh serial
from `'CB'` to `'X'` succeeds yet leaves the supply report unbalanced
(the moved row keeps `owner_type = 'cb'`, so it is counted in no tier). -/
theorem supply_unbalanced_counterexample :
    (transfer_tokens_between_fis (runOps [Op.mint 100 1]) "CB" "X" [0]).2 =
      TransferResult.ok 1 100 ∧
    (get_money_supply
      (runOps [Op.mint 100 1, Op.transfer "CB" "X" [0]])).is_balanced = false := by
  decide

/-! ## Atomicity and preconditions of transfer (C3, C4) -/

theorem transferLoop_fails (from_fi to_fi : String) (ts : Nat) :
    ∀ serials tokens,
      (∃ s ∈ serials, ∀ t ∈ tokens,
        ¬(t.serial = s ∧ t.current_owner = from_fi)) →
      ∃ e, transferLoop from_fi to_fi ts serials tokens = Except.error e := by
  intro serials
  induction serials with
  | nil =>
      intro tokens h
      obtain ⟨s, hs, _⟩ := h
      simp at hs
  | cons s' rest ih =>
      intro tokens h
      obtain ⟨s, hs, hbad⟩ := h
      rw [transferLoop]
      rcases hf : findToken tokens s' from_fi with _ | tk
      · exact ⟨s', rfl⟩
      · have hf' : tokens.find?
            (fun t => decide (t.serial = s' ∧ t.current_owner = from_fi)) =
              some tk := hf
        have htk_mem : tk ∈ tokens := List.mem_of_find?_eq_some hf'
        have htk_p := List.find?_some hf'
        simp only [decide_eq_true_eq] at htk_p
        have hss : s ≠ s' := by
          rintro rfl
          exact hbad tk htk_mem htk_p
        have hs_rest : s ∈ rest := by
          rcases List.mem_cons.mp hs with rfl | hr
          · exact absurd rfl hss
          · exact hr
        have hbad' : ∀ t ∈ applyTransfer tokens s' to_fi ts,
            ¬(t.serial = s ∧ t.current_owner = from_fi) := by
          rintro t ht ⟨hts, hto2⟩
          obtain ⟨u, hu, he⟩ := List.mem_map.mp ht
          by_cases hc : u.serial = s'
          · have hser : t.serial = u.serial := by
              rw [← he]
              split <;> rfl
            exact hss (by rw [← hts, hser, hc])
          · have hteq : t = u := by rw [← he, if_neg hc]
            rw [hteq] at hts hto2
            exact hbad u hu ⟨hts, hto2⟩
        obtain ⟨e, he⟩ := ih (applyTransfer tokens s' to_fi ts)
          ⟨s, hs_rest, hbad'⟩
        refine ⟨e, ?_⟩
        rw [he]

/-- C3.  Atomic transfer: when some named serial has no row owned by the
claimed sender, `transfer_tokens_between_fis` returns the not-owned error
and the committed database is exactly the input database: every token row
(ownership and `last_transfer_at` included) is unchanged and no ledger
row is appended, because the close-without-commit rolls back the pending
updates of the earlier serials. -/
theorem transfer_atomic (db : DB) (from_fi to_fi : String)
    (serials : List Nat)
    (h : ∃ s ∈ serials, ∀ t ∈ db.tokens,
      ¬(t.serial = s ∧ t.current_owner = from_fi)) :
    (transfer_tokens_between_fis db from_fi to_fi serials).1 = db ∧
    ∃ s, (transfer_tokens_between_fis db from_fi to_fi serials).2 =
      TransferResult.notOwned s := by
  obtain ⟨e, he⟩ := transferLoop_fails from_fi to_fi db.clock serials
    db.tokens h
  simp only [transfer_tokens_between_fis, he]
  exact ⟨trivial, e, rfl⟩

/-- A database with one ₹5 token owned by FI `'A'`. -/
def oneTokenDB : DB :=
  ⟨[⟨0, 5, TokenStatus.active, "A", "fi", 0, 0, none⟩], ["A", "B"],
    [], [], 1, 1, 0, 0⟩

/-- Witness for C3: a transfer naming the valid serial 0 and the unknown
serial 1 fails and leaves the database unchanged. -/
theorem transfer_atomic_witness :
    (transfer_tokens_between_fis oneTokenDB "A" "B" [0, 1]).1 = oneTokenDB ∧
    ∃ s, (transfer_tokens_between_fis oneTokenDB "A" "B" [0, 1]).2 =
      TransferResult.notOwned s :=
  transfer_atomic oneTokenDB "A" "B" [0, 1] (by decide)

/-- A database whose single token is `spent` but still recorded as owned
by FI `'A'`. -/
def spentTokenDB : DB :=
  ⟨[⟨0, 5, TokenStatus.spent, "A", "fi", 0, 0, none⟩], ["A", "B"],
    [], [], 1, 1, 0, 0⟩

/-- C4, counterexample to the claim as stated: the ownership query of
`transfer_tokens_between_fis` has no `status = 'active'` filter, so a
spent token still recorded as owned by the sender is transferred: the
call succeeds and the spent row's owner changes to the recipient. -/
theorem transfer_moves_spent_token :
    (transfer_tokens_between_fis spentTokenDB "A" "B" [0]).2 =
      TransferResult.ok 0 5 ∧
    (transfer_tokens_between_fis spentTokenDB "A" "B" [0]).1.tokens =
      [⟨0, 5, TokenStatus.spent, "B", "fi", 0, 0, some 0⟩] := by
  decide

/-- Success soundness of the transfer loop: every requested serial had,
in the starting rows, a token with that serial owned by the sender. -/
theorem transferLoop_ok_ownership (from_fi to_fi : String) (ts : Nat) :
    ∀ serials tokens r,
      transferLoop from_fi to_fi ts serials tokens = Except.ok r →
      ∀ s ∈ serials, ∃ t ∈ tokens,
        t.serial = s ∧ t.current_owner = from_fi := by
  intro serials
  induction serials with
  | nil => intro tokens r _ s hs; simp at hs
  | cons s' rest ih =>
      intro tokens r heq s hs
      rw [transferLoop] at heq
      rcases hf : findToken tokens s' from_fi with _ | tk
      · rw [hf] at heq
        exact absurd heq (by simp)
      · rw [hf] at heq
        rcases hrec : transferLoop from_fi to_fi ts rest
            (applyTransfer tokens s' to_fi ts) with e | ⟨fin, tot⟩
        · rw [hrec] at heq
          exact absurd heq (by simp)
        · have hf' : tokens.find?
              (fun t => decide (t.serial = s' ∧ t.current_owner = from_fi)) =
                some tk := hf
          have htk_mem : tk ∈ tokens := List.mem_of_find?_eq_some hf'
          have htk_p := List.find?_some hf'
          simp only [decide_eq_true_eq] at htk_p
          obtain ⟨htk_s, htk_o⟩ := htk_p
          rcases List.mem_cons.mp hs with rfl | hs'
          · exact ⟨tk, htk_mem, htk_s, htk_o⟩
          · obtain ⟨t, ht, hts, hto2⟩ :=
              ih (applyTransfer tokens s' to_fi ts) (fin, tot) hrec s hs'
            obtain ⟨u, hu, he⟩ := List.mem_map.mp ht
            by_cases hc : u.serial = s'
            · have hser : t.serial = u.serial := by
                rw [← he]
                split <;> rfl
              refine ⟨tk, htk_mem, ?_, htk_o⟩
              rw [htk_s, ← hc, ← hser, hts]
            · have hteq : t = u := by rw [← he, if_neg hc]
              rw [hteq] at hts hto2
              exact ⟨u, hu, hts, hto2⟩

/-- C4, amended.  `transfer_tokens_between_fis` verifies ownership only:
if the call succeeds, every named serial resolved to a row whose
`current_owner` was the sending entity; the token's `status` is not
checked: a spent or destroyed row owned by the sender is transferred,
and any ownership mismatch fails the whole call atomically. -/
theorem transfer_verifies_ownership (db : DB) (from_fi to_fi : String)
    (serials : List Nat) (txId total : Nat)
    (h : (transfer_tokens_between_fis db from_fi to_fi serials).2 =
      TransferResult.ok txId total) :
    ∀ s ∈ serials, ∃ t ∈ db.tokens,
      t.serial = s ∧ t.current_owner = from_fi := by
  simp only [transfer_tokens_between_fis] at h
  rcases hr : transferLoop from_fi to_fi db.clock serials db.tokens
      with e | ⟨toks, tot⟩
  · rw [hr] at h
    simp at h
  · exact transferLoop_ok_ownership from_fi to_fi db.clock serials db.tokens
      (toks, tot) hr

/-- Witness for C4 (amended): the successful single-serial transfer in
`oneTokenDB` had its serial owned by the sender. -/
theorem transfer_verifies_ownership_witness :
    ∃ t ∈ oneTokenDB.tokens, t.serial = 0 ∧ t.current_owner = "A" :=
  transfer_verifies_ownership oneTokenDB "A" "B" [0] 0 5 (by decide) 0
    (List.mem_singleton_self 0)

/-! ## The overshoot path of allocation (C8) -/

/-- A registered FI and a vault holding one ₹1 and one ₹5 token
(reached by real endpoint calls). -/
def overshootDB : DB :=
  runOps [Op.register "FI1", Op.mintSpecific [(1, 1), (5, 1)]]

/-- C8, behavior of the source at the failing input: allocating ₹3 from
the pool having one ₹1 and one ₹5 token overshoots (descending greedy picks ₹5),
the ascending exact-subset pass covers only ₹1 < 3, and the code then
mints the FULL amount ₹3 (tokens ₹2 and ₹1) — not the ₹2 shortfall the
spec describes — after `conn.close()`; the next cursor use raises
`sqlite3.ProgrammingError`, so no ownership changes and no allocation
ledger row is ever committed, while the ₹3 mint (on its own connection)
persists.  The final rows are ₹1, ₹5, ₹2, ₹1, all still owned by `'CB'`. -/
theorem allocate_overshoot_crash_eval :
    (allocate_tokens_to_fi overshootDB "FI1" 3).2 =
      AllocResult.closedConnCrash ∧
    (allocate_tokens_to_fi overshootDB "FI1" 3).1.tokens.map
      Token.denomination = [1, 5, 2, 1] ∧
    (∀ t ∈ (allocate_tokens_to_fi overshootDB "FI1" 3).1.tokens,
      t.current_owner = "CB") ∧
    (allocate_tokens_to_fi overshootDB "FI1" 3).1.ledger.filter
      (fun e => decide (e.transaction_type = "allocation")) = [] := by
  decide

/-! ## Termination of allocation (C9) -/

theorem allocateFuel_indep (db : DB) (fi_id : String) (amount : Int)
    (hnu : ¬ (greedyTok amount (cbAvailable db) 0).2 < amount) (f1 f2 : Nat) :
    allocateFuel (f1 + 1) db fi_id amount =
      allocateFuel (f2 + 1) db fi_id amount := by
  by_cases hfi : fi_id ∉ db.fis
  · rw [allocateFuel_notFound f1 db fi_id amount hfi,
      allocateFuel_notFound f2 db fi_id amount hfi]
  · by_cases hov : amount < (greedyTok amount (cbAvailable db) 0).2
    · by_cases has :
          (ascendSelect amount (sortTokAsc (cbAvailable db)) 0).2 < amount
      · rw [allocateFuel_overshoot_crash f1 db fi_id amount hfi hnu hov has,
          allocateFuel_overshoot_crash f2 db fi_id amount hfi hnu hov has]
      · rw [allocateFuel_overshoot_commit f1 db fi_id amount hfi hnu hov has,
          allocateFuel_overshoot_commit f2 db fi_id amount hfi hnu hov has]
    · rw [allocateFuel_exact f1 db fi_id amount hfi hnu hov,
        allocateFuel_exact f2 db fi_id amount hfi hnu hov]

theorem allocateFuel_ne_outOfFuel (db : DB) (fi_id : String) (amount : Int)
    (hnu : ¬ (greedyTok amount (cbAvailable db) 0).2 < amount) (f : Nat) :
    (allocateFuel (f + 1) db fi_id amount).2 ≠ AllocResult.outOfFuel := by
  by_cases hfi : fi_id ∉ db.fis
  · rw [allocateFuel_notFound f db fi_id amount hfi]
    simp
  · by_cases hov : amount < (greedyTok amount (cbAvailable db) 0).2
    · by_cases has :
          (ascendSelect amount (sortTokAsc (cbAvailable db)) 0).2 < amount
      · rw [allocateFuel_overshoot_crash f db fi_id amount hfi hnu hov has]
        simp
      · rw [allocateFuel_overshoot_commit f db fi_id amount hfi hnu hov has]
        simp [allocCommit]
    · rw [allocateFuel_exact f db fi_id amount hfi hnu hov]
      simp [allocCommit]

/-- C9.  Allocation terminates: for every database, FI id and amount, the
fueled embedding of `allocate_tokens_to_fi` is stable from fuel 2 on —
the retry-after-mint recursion is taken at most once, because after the
shortfall mint the vault pool sums to exactly the requested amount — and
fuel 2 is never exhausted. -/
theorem allocate_terminates (db : DB) (fi_id : String) (amount : Int)
    (fuel : Nat) (hf : 2 ≤ fuel) :
    allocateFuel fuel db fi_id amount = allocate_tokens_to_fi db fi_id amount ∧
    (allocate_tokens_to_fi db fi_id amount).2 ≠ AllocResult.outOfFuel := by
  obtain ⟨f, rfl⟩ : ∃ f, fuel = f + 2 := ⟨fuel - 2, by omega⟩
  by_cases hu : (greedyTok amount (cbAvailable db) 0).2 < amount
  · by_cases hfi : fi_id ∉ db.fis
    · constructor
      · exact (allocateFuel_notFound (f + 1) db fi_id amount hfi).trans
          (allocateFuel_notFound 1 db fi_id amount hfi).symm
      · have h2 : allocate_tokens_to_fi db fi_id amount =
            (db, AllocResult.fiNotFound) :=
          allocateFuel_notFound 1 db fi_id amount hfi
        rw [h2]
        simp
    · have hstep1 : allocateFuel (f + 2) db fi_id amount =
          allocateFuel (f + 1)
            (mint_mixed_tokens db
              (amount - (greedyTok amount (cbAvailable db) 0).2)).1
            fi_id amount :=
        allocateFuel_under (f + 1) db fi_id amount hfi hu
      have hstep2 : allocate_tokens_to_fi db fi_id amount =
          allocateFuel 1
            (mint_mixed_tokens db
              (amount - (greedyTok amount (cbAvailable db) 0).2)).1
            fi_id amount :=
        allocateFuel_under 1 db fi_id amount hfi hu
      have hnu' := no_second_undershoot db amount hu
      constructor
      · rw [hstep1, hstep2]
        exact allocateFuel_indep _ fi_id amount hnu' f 0
      · rw [hstep2]
        exact allocateFuel_ne_outOfFuel _ fi_id amount hnu' 0
  · constructor
    · exact allocateFuel_indep db fi_id amount hu (f + 1) 1
    · exact allocateFuel_ne_outOfFuel db fi_id amount hu 1

/-- Witness for C9 at the empty database, FI `'A'`, amount 1, fuel 3. -/
theorem allocate_terminates_witness :
    allocateFuel 3 emptyDB "A" 1 = allocate_tokens_to_fi emptyDB "A" 1 ∧
    (allocate_tokens_to_fi emptyDB "A" 1).2 ≠ AllocResult.outOfFuel :=
  allocate_terminates emptyDB "A" 1 3 (by norm_num)

/-! ## The unreachable guard of mint_mixed_tokens (C10) -/

/-- C10.  Because 1 is a denomination, `make_change` sums exactly to every
positive amount, so the `'Cannot create exact amount'` guard of
`mint_mixed_tokens` is unreachable for positive amounts: the call mints
and succeeds; it fails only for `amount ≤ 0`, with the
`'Amount must be positive'` error and no state change. -/
theorem mint_mixed_guard_unreachable (db : DB) (amount : Int) :
    (0 < amount →
      (mint_mixed_tokens db amount).2 ≠ MintResult.cannotCreateExact ∧
      (mint_mixed_tokens db amount).2 =
        MintResult.ok db.nextBatch amount.toNat
          ((mkTokens db.nextSerial (make_change amount) db.clock
            db.nextBatch).map Token.serial)) ∧
    (amount ≤ 0 →
      mint_mixed_tokens db amount = (db, MintResult.invalidAmount)) := by
  constructor
  · intro ha
    have h2 := mint_mixed_pos_snd db amount ha
    refine ⟨?_, h2⟩
    rw [h2]
    simp
  · intro ha
    simp only [mint_mixed_tokens]
    rw [if_pos ha]

/-- Witness for C10 at the empty database and `amount = 3`. -/
theorem mint_mixed_guard_unreachable_witness :
    (mint_mixed_tokens emptyDB 3).2 ≠ MintResult.cannotCreateExact ∧
    (mint_mixed_tokens emptyDB 3).2 =
      MintResult.ok emptyDB.nextBatch (3 : Int).toNat
        ((mkTokens emptyDB.nextSerial (make_change 3) emptyDB.clock
          emptyDB.nextBatch).map Token.serial) :=
  (mint_mixed_guard_unreachable emptyDB 3).1 (by decide)

/-! ## The nullifier registry (C2)

The `consume` operation of the nullifier registry is implemented in the
FI node's database module, which is not among the provided sources; the
sources contain only the `nullifiers` table schema with its
`nullifier TEXT PRIMARY KEY` column (database.py lines 74-82). -/

/-- A row of the `nullifiers` table (database.py lines 74-82). -/
structure NullifierRow where
  nullifier : String
  token_serial : String
  spent_at : Nat
  transaction_id : String
deriving DecidableEq

inductive ConsumeResult
  | ok
  | alreadySpent
deriving DecidableEq

/-- Modelled from the spec: the missing FI-node operation
`consume(nullifierValue, tokenSerial, txId) → Ok | AlreadySpent` over the
`nullifiers` table — inserts a row if the value is absent; if the value
is present (the primary key would be violated) it signals AlreadySpent
and leaves the table unchanged. -/
def consume (tbl : List NullifierRow) (value tokenSerial txId : String)
    (now : Nat) : List NullifierRow × ConsumeResult :=
  if tbl.any (fun r => r.nullifier == value) then
    (tbl, ConsumeResult.alreadySpent)
  else (tbl ++ [⟨value, tokenSerial, now, txId⟩], ConsumeResult.ok)

/-- Number of rows carrying a given nullifier value. -/
def countValue (tbl : List NullifierRow) (value : String) : Nat :=
  (tbl.filter (fun r => r.nullifier == value)).length

theorem any_value_iff (tbl : List NullifierRow) (value : String) :
    tbl.any (fun r => r.nullifier == value) = true ↔
      countValue tbl value ≠ 0 := by
  simp only [countValue, List.any_eq_true, Ne, List.length_eq_zero,
    List.filter_eq_nil_iff, beq_iff_eq]
  push_neg
  constructor
  · rintro ⟨r, hr, he⟩
    exact ⟨r, hr, he⟩
  · rintro ⟨r, hr, he⟩
    exact ⟨r, hr, he⟩

/-- C2.  No replay: after any first `consume` of a value, a second
`consume` of the same value signals AlreadySpent and leaves the table
unchanged; the first call inserts the value only when it was absent
(signalling Ok), so a value is inserted at most once. -/
theorem consume_no_replay (tbl : List NullifierRow)
    (value s1 t1 s2 t2 : String) (n1 n2 : Nat) :
    consume (consume tbl value s1 t1 n1).1 value s2 t2 n2 =
      ((consume tbl value s1 t1 n1).1, ConsumeResult.alreadySpent) ∧
    ((consume tbl value s1 t1 n1).2 = ConsumeResult.ok ↔
      countValue tbl value = 0) ∧
    countValue (consume tbl value s1 t1 n1).1 value =
      max (countValue tbl value) 1 := by
  by_cases h : tbl.any (fun r => r.nullifier == value) = true
  · have hc : countValue tbl value ≠ 0 := (any_value_iff tbl value).mp h
    have h1 : consume tbl value s1 t1 n1 = (tbl, ConsumeResult.alreadySpent) := by
      unfold consume
      rw [if_pos h]
    rw [h1]
    refine ⟨?_, by simp [hc], by simp; omega⟩
    unfold consume
    rw [if_pos h]
  · have hc : countValue tbl value = 0 := by
      by_contra hne
      exact h ((any_value_iff tbl value).mpr hne)
    have h1 : consume tbl value s1 t1 n1 =
        (tbl ++ [⟨value, s1, n1, t1⟩], ConsumeResult.ok) := by
      unfold consume
      rw [if_neg h]
    have hf0 : tbl.filter (fun r => r.nullifier == value) = [] :=
      List.length_eq_zero.mp hc
    have hmem : (⟨value, s1, n1, t1⟩ : NullifierRow) ∈
        tbl ++ [(⟨value, s1, n1, t1⟩ : NullifierRow)] :=
      List.mem_append_right tbl (List.mem_singleton_self _)
    have hany : (tbl ++ [(⟨value, s1, n1, t1⟩ : NullifierRow)]).any
        (fun r => r.nullifier == value) = true :=
      List.any_eq_true.mpr ⟨⟨value, s1, n1, t1⟩, hmem, by simp⟩
    rw [h1]
    refine ⟨?_, by simp [hc], ?_⟩
    · unfold consume
      rw [if_pos hany]
    · simp [countValue, List.filter_append, hf0, hc]

end CBDC
